import Mathlib

/-!
# Shallow embedding of the rospeek-core CDR codec and schema machinery

This file embeds the Rust sources of the `rospeek` repository
(`crates/rospeek-core/src/cdr.rs` and `crates/rospeek-core/src/schema.rs`)
into Lean and proves the specification claims about them.

Modelling conventions:
* byte buffers are `List Nat` with each element standing for one `u8`
  (all bytes produced by the embedded reads stay below 256 because the reads
  only ever copy buffer elements);
* `std::io::Cursor<&[u8]>` is a byte list plus a position;
* fallible Rust functions returning `RosPeekResult<T>` become
  `Except RosPeekError T`;
* a Rust panic (out-of-bounds slice) is modelled as `Option.none`;
* `HashMap<String, Arc<MessageSchema>>` is an association list (only
  `contains_key`/`insert`/`get` are used by the source);
* machine integers are `Nat`/`Int`; signed reinterpretation is explicit
  two's complement on `2^w`.
-/

namespace RosPeek

/-- Error taxonomy of `rospeek-core` restricted to the variants the embedded
code can produce.  `unexpectedEof` stands for the `std::io` read failure of
`read_exact`, `idlNotFound` for `RosPeekError::IdlNotFound` (the spec calls it
`SchemaNotFound`), `fuelExhausted` models non-terminating schema recursion
(a stack overflow in the source), and `panicked` models a Rust panic. -/
inductive RosPeekError where
  | unexpectedEof
  | invalidUtf8
  | idlNotFound (typeName : String)
  | topicNotFound (topicName : String)
  | ioError
  | fuelExhausted
  | panicked
  deriving DecidableEq, Repr

/-- `enum Endianness { Little, Big }` from cdr.rs. -/
inductive Endianness where
  | Little
  | Big
  deriving DecidableEq, Repr

/-- `fn to_endianness(data: &[u8]) -> Endianness` (cdr.rs:28-34):
`data.get(1).copied().unwrap_or(0x01)`, `0x00 => Big`, otherwise `Little`. -/
def to_endianness (data : List Nat) : Endianness :=
  match (data.get? 1).getD 0x01 with
  | 0x00 => Endianness.Big
  | 0x01 => Endianness.Little
  | _ => Endianness.Little

/-- The cursor part of `CdrDecoder`: the buffer handed to
`Cursor::new(&data[4..])` together with the current position and the detected
endianness (the source keeps `endianness` as a sibling struct field; it is
bundled here because every read consults it). -/
structure Cursor where
  bytes : List Nat
  pos : Nat
  endianness : Endianness
  deriving DecidableEq, Repr

/-- `Read::read_exact` on a `Cursor<&[u8]>`: succeeds returning the next `n`
bytes and advancing the position iff `n` bytes remain, otherwise the
`UnexpectedEof` io error. -/
def readExact (c : Cursor) (n : Nat) : Except RosPeekError (List Nat × Cursor) :=
  if c.pos + n ≤ c.bytes.length then
    .ok ((c.bytes.drop c.pos).take n, { c with pos := c.pos + n })
  else
    .error .unexpectedEof

/-- `fn align_to(&mut self, align: usize)` (cdr.rs:151-159): compute
`(align - pos % align) % align` padding bytes and consume them with
`read_exact` when the padding is positive. -/
def align_to (c : Cursor) (align : Nat) : Except RosPeekError Cursor :=
  let padding := (align - c.pos % align) % align
  if padding > 0 then (readExact c padding).map (·.2) else .ok c

/-- Little-endian byte combination (`u*::from_le_bytes`). -/
def fromLeBytes (bs : List Nat) : Nat :=
  bs.foldr (fun b acc => b + 256 * acc) 0

/-- Big-endian byte combination (`u*::from_be_bytes`). -/
def fromBeBytes (bs : List Nat) : Nat :=
  bs.foldl (fun acc b => 256 * acc + b) 0

/-- Combine bytes according to the decoder's endianness, as every multi-byte
read in cdr.rs does with its `match self.endianness`. -/
def combineBytes (e : Endianness) (bs : List Nat) : Nat :=
  match e with
  | .Little => fromLeBytes bs
  | .Big => fromBeBytes bs

/-- Two's-complement reinterpretation of a `w`-bit unsigned value as signed
(`iN::from_le_bytes` / `from_be_bytes` on the same byte patterns). -/
def toSigned (w : Nat) (n : Nat) : Int :=
  if n < 2 ^ (w - 1) then (n : Int) else (n : Int) - 2 ^ w

/-- `fn decode_u8` (cdr.rs:172-176): one byte, no alignment. -/
def decode_u8 (c : Cursor) : Except RosPeekError (Nat × Cursor) :=
  (readExact c 1).map (fun p => (p.1.headD 0, p.2))

/-- `fn decode_i8` (cdr.rs:178-180). -/
def decode_i8 (c : Cursor) : Except RosPeekError (Int × Cursor) :=
  (decode_u8 c).map (fun p => (toSigned 8 p.1, p.2))

/-- `fn decode_bool` (cdr.rs:167-170): `b != 0`. -/
def decode_bool (c : Cursor) : Except RosPeekError (Bool × Cursor) :=
  (decode_u8 c).map (fun p => (p.1 != 0, p.2))

/-- The `self.align_to(N)?; self.decode_bytes::<N>()?` composition shared by
every multi-byte decoder in cdr.rs. -/
def alignedBytes (c : Cursor) (a : Nat) : Except RosPeekError (List Nat × Cursor) := do
  let c ← align_to c a
  readExact c a

/-- `fn decode_u16` (cdr.rs:182-189): align to 2, two bytes, endianness
combination. -/
def decode_u16 (c : Cursor) : Except RosPeekError (Nat × Cursor) :=
  (alignedBytes c 2).map (fun p => (combineBytes p.2.endianness p.1, p.2))

/-- `fn decode_i16` (cdr.rs:191-198). -/
def decode_i16 (c : Cursor) : Except RosPeekError (Int × Cursor) :=
  (alignedBytes c 2).map (fun p => (toSigned 16 (combineBytes p.2.endianness p.1), p.2))

/-- `fn decode_u32` (cdr.rs:200-207): align to 4, four bytes, endianness
combination. -/
def decode_u32 (c : Cursor) : Except RosPeekError (Nat × Cursor) :=
  (alignedBytes c 4).map (fun p => (combineBytes p.2.endianness p.1, p.2))

/-- `fn decode_i32` (cdr.rs:209-216). -/
def decode_i32 (c : Cursor) : Except RosPeekError (Int × Cursor) :=
  (alignedBytes c 4).map (fun p => (toSigned 32 (combineBytes p.2.endianness p.1), p.2))

/-- `fn decode_u64` (cdr.rs:218-225): align to 8, eight bytes, endianness
combination. -/
def decode_u64 (c : Cursor) : Except RosPeekError (Nat × Cursor) :=
  (alignedBytes c 8).map (fun p => (combineBytes p.2.endianness p.1, p.2))

/-- `fn decode_i64` (cdr.rs:227-234). -/
def decode_i64 (c : Cursor) : Except RosPeekError (Int × Cursor) :=
  (alignedBytes c 8).map (fun p => (toSigned 64 (combineBytes p.2.endianness p.1), p.2))

/-- `fn decode_f32` (cdr.rs:236-243).  IEEE-754 interpretation of the bit
pattern is outside the shallow embedding; the decoded value is kept as the
raw 32-bit pattern, which determines the float uniquely. -/
def decode_f32 (c : Cursor) : Except RosPeekError (Nat × Cursor) :=
  (alignedBytes c 4).map (fun p => (combineBytes p.2.endianness p.1, p.2))

/-- `fn decode_f64` (cdr.rs:245-252), as the raw 64-bit pattern. -/
def decode_f64 (c : Cursor) : Except RosPeekError (Nat × Cursor) :=
  (alignedBytes c 8).map (fun p => (combineBytes p.2.endianness p.1, p.2))

/-- `fn decode_char` (cdr.rs:254-257): one byte, `code as char`. -/
def decode_char (c : Cursor) : Except RosPeekError (Char × Cursor) :=
  (decode_u8 c).map (fun p => (Char.ofNat p.1, p.2))

/-- The null-terminator stripping step of `decode_string` (cdr.rs:263-265):
`if buf.last() == Some(&0) { buf.pop(); }`. -/
def stripNul (buf : List Nat) : List Nat :=
  if buf.getLast? = some 0 then buf.dropLast else buf

/-- One continuation byte of a UTF-8 sequence. -/
def isUtf8Cont (b : Nat) : Bool := 0x80 ≤ b && b ≤ 0xBF

/-- Strict UTF-8 decoding, mirroring `String::from_utf8`'s validation
(rejecting overlong forms, surrogates and values above U+10FFFF): `none`
exactly on the inputs Rust rejects. -/
def utf8Decode : List Nat → Option (List Char)
  | [] => some []
  | b0 :: rest =>
    if b0 < 0x80 then
      (utf8Decode rest).map (fun cs => Char.ofNat b0 :: cs)
    else if b0 < 0xC2 then none
    else if b0 ≤ 0xDF then
      match rest with
      | b1 :: rest1 =>
        if isUtf8Cont b1 then
          (utf8Decode rest1).map (fun cs => Char.ofNat ((b0 - 0xC0) * 0x40 + (b1 - 0x80)) :: cs)
        else none
      | [] => none
    else if b0 ≤ 0xEF then
      match rest with
      | b1 :: b2 :: rest2 =>
        let b1ok :=
          if b0 = 0xE0 then 0xA0 ≤ b1 && b1 ≤ 0xBF
          else if b0 = 0xED then 0x80 ≤ b1 && b1 ≤ 0x9F
          else isUtf8Cont b1
        if b1ok && isUtf8Cont b2 then
          (utf8Decode rest2).map (fun cs =>
            Char.ofNat ((b0 - 0xE0) * 0x1000 + (b1 - 0x80) * 0x40 + (b2 - 0x80)) :: cs)
        else none
      | _ => none
    else if b0 ≤ 0xF4 then
      match rest with
      | b1 :: b2 :: b3 :: rest3 =>
        let b1ok :=
          if b0 = 0xF0 then 0x90 ≤ b1 && b1 ≤ 0xBF
          else if b0 = 0xF4 then 0x80 ≤ b1 && b1 ≤ 0x8F
          else isUtf8Cont b1
        if b1ok && isUtf8Cont b2 && isUtf8Cont b3 then
          (utf8Decode rest3).map (fun cs =>
            Char.ofNat ((b0 - 0xF0) * 0x40000 + (b1 - 0x80) * 0x1000 +
              (b2 - 0x80) * 0x40 + (b3 - 0x80)) :: cs)
        else none
      | _ => none
    else none

/-- `fn decode_string` (cdr.rs:259-267): aligned u32 length prefix, that many
raw bytes, optional single trailing NUL stripped, strict UTF-8 validation
(`String::from_utf8 ... map_err(RosPeekError::InvalidUtf8)`). -/
def decode_string (c : Cursor) : Except RosPeekError (String × Cursor) := do
  let (len, c1) ← decode_u32 c
  let (buf, c2) ← readExact c1 len
  match utf8Decode (stripNul buf) with
  | some cs => .ok (String.mk cs, c2)
  | none => .error .invalidUtf8

/-- `enum FieldType` (schema.rs:57-65). -/
inductive FieldType where
  | Object (typeName : String)
  | Sequence (typeName : String)
  | Array (typeName : String) (length : Nat)
  deriving DecidableEq, Repr

/-- `FieldType::type_name` (schema.rs:68-74). -/
def FieldType.type_name : FieldType → String
  | .Object n => n
  | .Sequence n => n
  | .Array n _ => n

/-- `FieldType::is_iterable` (schema.rs:76-78): everything but `Object`. -/
def FieldType.is_iterable : FieldType → Bool
  | .Object _ => false
  | _ => true

/-- `struct MessageField` (schema.rs:39-45). -/
structure MessageField where
  name : String
  field_type : FieldType
  deriving DecidableEq, Repr

/-- `MessageField::type_name` (schema.rs:48-50). -/
def MessageField.type_name (f : MessageField) : String := f.field_type.type_name

/-- `MessageField::is_iterable` (schema.rs:52-54). -/
def MessageField.is_iterable (f : MessageField) : Bool := f.field_type.is_iterable

/-- `struct MessageSchema` (schema.rs:11-17). -/
structure MessageSchema where
  type_name : String
  fields : List MessageField
  deriving DecidableEq, Repr

/-- `serde_json::Value` as produced by the decoder.  Floats are kept as their
raw bit patterns (`f32`/`f64` tagged separately); objects are key/value lists
in insertion order with `Map::insert` replace-on-duplicate semantics. -/
inductive JValue where
  | vBool (b : Bool)
  | vInt (n : Int)
  | vF32 (bits : Nat)
  | vF64 (bits : Nat)
  | vStr (s : String)
  | vArr (items : List JValue)
  | vObj (entries : List (String × JValue))

/-- `serde_json::Map::insert`: replace the value when the key is present,
otherwise append. -/
def insertKV (entries : List (String × JValue)) (k : String) (v : JValue) :
    List (String × JValue) :=
  match entries with
  | [] => [(k, v)]
  | (k', v') :: rest =>
    if k' = k then (k', v) :: rest else (k', v') :: insertKV rest k v

/-- The schema cache `HashMap<String, Arc<MessageSchema>>` of `CdrDecoder`. -/
abbrev Cache := List (String × MessageSchema)

/-- Cache lookup (`HashMap::get` / `contains_key`). -/
def cacheGet (cache : Cache) (k : String) : Option MessageSchema :=
  (cache.find? (fun p => p.1 = k)).map (·.2)

/-- The ambient schema resolution `MessageSchema::try_from` as a deterministic
function of the (immutable, per-process) filesystem: for a given type name it
either produces the parsed schema or fails with `IdlNotFound`.  The decode
machinery is parameterised over it. -/
abbrev SchemaEnv := String → Option MessageSchema

/-- `fn get_schema(&mut self, type_name)` (cdr.rs:141-147): serve from the
cache, otherwise resolve via `MessageSchema::try_from` and insert. -/
def getSchema (env : SchemaEnv) (cache : Cache) (k : String) :
    Except RosPeekError (MessageSchema × Cache) :=
  match cacheGet cache k with
  | some s => .ok (s, cache)
  | none =>
    match env k with
    | some s => .ok (s, cache ++ [(k, s)])
    | none => .error (.idlNotFound k)

/-- The result type threaded through the decode functions: decoded value,
cursor after the read, and the (possibly grown) schema cache. -/
abbrev DecRes := Except RosPeekError (JValue × Cursor × Cache)

/-- A decode branch that never touches the cache: run the reader, convert its
value, pass the cache through. -/
def primStep {α : Type} (cache : Cache) (r : Except RosPeekError (α × Cursor))
    (g : α → JValue) : DecRes :=
  r.map (fun p => (g p.1, p.2, cache))

/-- The `"builtin_interfaces/msg/Time" | "builtin_interfaces/msg/Duration"`
branch of `decode_primitive` (cdr.rs:114-118): an `int32` then a `uint32`,
no schema lookup. -/
def decodeTimeLike (c : Cursor) : Except RosPeekError ((Int × Nat) × Cursor) := do
  let (sec, c1) ← decode_i32 c
  let (nanosec, c2) ← decode_u32 c1
  .ok ((sec, nanosec), c2)

/-- `fn decode_primitive(&mut self, field)` (cdr.rs:94-125), parameterised by
`recur`, the `decode` at one less recursion depth used by the nested-structure
fallback branch. -/
def decodePrimWith (env : SchemaEnv)
    (recur : MessageSchema → Cursor → Cache → DecRes)
    (field : MessageField) (c : Cursor) (cache : Cache) : DecRes :=
  match field.type_name with
  | "boolean" => primStep cache (decode_bool c) JValue.vBool
  | "octet" => primStep cache (decode_u8 c) (fun n => .vInt n)
  | "char" => primStep cache (decode_char c) (fun ch => .vStr (String.mk [ch]))
  | "float" => primStep cache (decode_f32 c) JValue.vF32
  | "double" => primStep cache (decode_f64 c) JValue.vF64
  | "int8" => primStep cache (decode_i8 c) JValue.vInt
  | "uint8" => primStep cache (decode_u8 c) (fun n => .vInt n)
  | "int16" => primStep cache (decode_i16 c) JValue.vInt
  | "uint16" => primStep cache (decode_u16 c) (fun n => .vInt n)
  | "int32" => primStep cache (decode_i32 c) JValue.vInt
  | "uint32" => primStep cache (decode_u32 c) (fun n => .vInt n)
  | "int64" => primStep cache (decode_i64 c) JValue.vInt
  | "uint64" => primStep cache (decode_u64 c) (fun n => .vInt n)
  | "string" => primStep cache (decode_string c) JValue.vStr
  | "builtin_interfaces/msg/Time" =>
    primStep cache (decodeTimeLike c)
      (fun p => .vObj [("sec", .vInt p.1), ("nanosec", .vInt p.2)])
  | "builtin_interfaces/msg/Duration" =>
    primStep cache (decodeTimeLike c)
      (fun p => .vObj [("sec", .vInt p.1), ("nanosec", .vInt p.2)])
  | _ => do
    let (nested, cache') ← getSchema env cache field.type_name
    recur nested c cache'

/-- The `for _ in 0..length { items.push(self.decode_primitive(field)?) }` loop
of `decode_iterable` (cdr.rs:134-137), for an arbitrary element decoder. -/
def decodeElems (elem : Cursor → Cache → DecRes) :
    Nat → Cursor → Cache → Except RosPeekError (List JValue × Cursor × Cache)
  | 0, c, cache => .ok ([], c, cache)
  | n + 1, c, cache => do
    let (v, c1, cache1) ← elem c cache
    let (vs, c2, cache2) ← decodeElems elem n c1 cache1
    .ok (v :: vs, c2, cache2)

/-- `fn decode_iterable(&mut self, field)` (cdr.rs:127-139): `Array(_, n)`
takes the schema length, `Sequence(_)` reads a `u32` length from the wire,
anything else gets length 0; then the element loop. -/
def decodeIterWith (env : SchemaEnv)
    (recur : MessageSchema → Cursor → Cache → DecRes)
    (field : MessageField) (c : Cursor) (cache : Cache) : DecRes :=
  match field.field_type with
  | .Array _ n =>
    (decodeElems (decodePrimWith env recur field) n c cache).map
      (fun p => (.vArr p.1, p.2.1, p.2.2))
  | .Sequence _ => do
    let (len, c1) ← decode_u32 c
    (decodeElems (decodePrimWith env recur field) len c1 cache).map
      (fun p => (.vArr p.1, p.2.1, p.2.2))
  | .Object _ =>
    (decodeElems (decodePrimWith env recur field) 0 c cache).map
      (fun p => (.vArr p.1, p.2.1, p.2.2))

/-- The field loop of `fn decode(&mut self, schema)` (cdr.rs:83-90):
iterable fields via `decode_iterable`, the rest via `decode_primitive`,
inserting each result into the output object. -/
def decodeFieldsWith (env : SchemaEnv)
    (recur : MessageSchema → Cursor → Cache → DecRes) :
    List MessageField → Cursor → Cache → List (String × JValue) →
    Except RosPeekError (List (String × JValue) × Cursor × Cache)
  | [], c, cache, acc => .ok (acc, c, cache)
  | f :: fs, c, cache, acc => do
    let (v, c1, cache1) ←
      if f.is_iterable then decodeIterWith env recur f c cache
      else decodePrimWith env recur f c cache
    decodeFieldsWith env recur fs c1 cache1 (insertKV acc f.name v)

/-- One level of `fn decode(&mut self, schema)` (cdr.rs:80-92). -/
def decodeStep (env : SchemaEnv)
    (recur : MessageSchema → Cursor → Cache → DecRes)
    (schema : MessageSchema) (c : Cursor) (cache : Cache) : DecRes :=
  (decodeFieldsWith env recur schema.fields c cache []).map
    (fun p => (.vObj p.1, p.2.1, p.2.2))

/-- `CdrDecoder::decode` with an explicit recursion-depth budget: the Rust
recursion decode → decode_primitive → decode is unbounded (a cyclic schema
environment would overflow the stack); `fuel` bounds that depth, consumed one
unit per nested-schema descent. -/
def decodeSchema (env : SchemaEnv) : Nat → MessageSchema → Cursor → Cache → DecRes
  | 0, _, _, _ => .error .fuelExhausted
  | fuel + 1, schema, c, cache => decodeStep env (decodeSchema env fuel) schema c cache

/-- `struct CdrDecoder` (cdr.rs:22-26): cursor (with endianness) plus cache. -/
structure CdrDecoder where
  cursor : Cursor
  cache : Cache

/-- `CdrDecoder::new` (cdr.rs:41-50): detect endianness from the buffer, then
`Cursor::new(&data[4..])`.  The unchecked slice `&data[4..]` panics when the
buffer holds fewer than 4 bytes; the panic is modelled as `none`. -/
def CdrDecoder.new (data : List Nat) : Option CdrDecoder :=
  if 4 ≤ data.length then
    some ⟨⟨data.drop 4, 0, to_endianness data⟩, []⟩
  else none

/-- `CdrDecoder::from_schema` (cdr.rs:56-64): empty cursor, little-endian,
cache seeded with the given schema under its type name. -/
def CdrDecoder.from_schema (schema : MessageSchema) : CdrDecoder :=
  ⟨⟨[], 0, .Little⟩, [(schema.type_name, schema)]⟩

/-- `CdrDecoder::reset` (cdr.rs:70-74): re-detect endianness and rebind the
cursor onto `&data[4..]` keeping the cache; the unchecked slice panics
(`none`) when the buffer holds fewer than 4 bytes. -/
def CdrDecoder.reset (d : CdrDecoder) (data : List Nat) : Option CdrDecoder :=
  if 4 ≤ data.length then
    some ⟨⟨data.drop 4, 0, to_endianness data⟩, d.cache⟩
  else none

/-- `struct Topic` (model.rs), restricted to the fields `try_decode_json`
consults. -/
structure Topic where
  name : String
  type_name : String
  deriving DecidableEq, Repr

/-- The `BagReader` collaborator as `try_decode_json` sees it: a topic list
and, per topic, the ordered raw message payloads (`RawMessage::data`). -/
structure BagData where
  topics : List Topic
  read_messages : String → List (List Nat)

/-- Decoding one raw message inside the `map_init` worker closure
(cdr.rs:296): `decoder.reset(&msg.data).decode(&schema)`.  The worker's cache
is threaded; the short-buffer panic of `reset` is the `panicked` outcome. -/
def decodeMsg (env : SchemaEnv) (fuel : Nat) (schema : MessageSchema)
    (payload : List Nat) (cache : Cache) :
    Except RosPeekError (JValue × Cache) :=
  match CdrDecoder.reset ⟨⟨[], 0, .Little⟩, cache⟩ payload with
  | none => .error .panicked
  | some d => (decodeSchema env fuel schema d.cursor d.cache).map (fun p => (p.1, p.2.2))

/-- One rayon worker: its contiguous run of payloads decoded in order with a
single decoder, stopping at the first failure (`collect::<Result<_,_>>`). -/
def decodeSegment (env : SchemaEnv) (fuel : Nat) (schema : MessageSchema) :
    List (List Nat) → Cache → Except RosPeekError (List JValue × Cache)
  | [], cache => .ok ([], cache)
  | p :: ps, cache => do
    let (v, cache1) ← decodeMsg env fuel schema p cache
    let (vs, cache2) ← decodeSegment env fuel schema ps cache1
    .ok (v :: vs, cache2)

/-- The rayon execution of `messages.par_iter().map_init(...).collect()`
(cdr.rs:292-298): the payload list is split into contiguous segments, one per
worker; each worker starts from `CdrDecoder::from_schema(&schema)` (cache
seeded with the top-level schema) and the per-index results are reassembled
in input order, the whole batch failing if any worker failed. -/
def parCollect (env : SchemaEnv) (fuel : Nat) (schema : MessageSchema) :
    List (List (List Nat)) → Except RosPeekError (List JValue)
  | [] => .ok []
  | seg :: rest => do
    let (vs, _) ← decodeSegment env fuel schema seg (CdrDecoder.from_schema schema).cache
    let vss ← parCollect env fuel schema rest
    .ok (vs ++ vss)

/-- `fn try_decode_json` (cdr.rs:278-301) under a given rayon segmentation of
the payload list: find the topic (else `TopicNotFound`), resolve its schema
(else `IdlNotFound`), then the data-parallel decode. -/
def try_decode_json (env : SchemaEnv) (fuel : Nat) (reader : BagData)
    (topic : String) (segments : List (List (List Nat))) :
    Except RosPeekError (List JValue) :=
  match reader.topics.find? (fun t => t.name = topic) with
  | none => .error (.topicNotFound topic)
  | some info =>
    match env info.type_name with
    | none => .error (.idlNotFound info.type_name)
    | some schema => parCollect env fuel schema segments

/-- The sequential reference execution of `try_decode_json`: a single worker
decoding every payload in input order. -/
def try_decode_json_seq (env : SchemaEnv) (fuel : Nat) (reader : BagData)
    (topic : String) : Except RosPeekError (List JValue) :=
  match reader.topics.find? (fun t => t.name = topic) with
  | none => .error (.topicNotFound topic)
  | some info =>
    match env info.type_name with
    | none => .error (.idlNotFound info.type_name)
    | some schema =>
      (decodeSegment env fuel schema (reader.read_messages topic)
        (CdrDecoder.from_schema schema).cache).map (·.1)

/-! ## Cache-free reference semantics

The decode functions above thread the worker-local schema cache.  The cache
is a pure memo of `env`: the reference family below replaces every cache
consultation by a direct `env` lookup, and the coherence lemmas prove that a
decoder whose cache agrees with `env` computes exactly the reference
values. -/

/-- Cache coherence: every cached schema is exactly what `env` resolves. -/
def Coherent (env : SchemaEnv) (cache : Cache) : Prop :=
  ∀ k s, cacheGet cache k = some s → env k = some s

/-- Reference (cache-free) schema lookup. -/
def getSchemaNC (env : SchemaEnv) (k : String) : Except RosPeekError MessageSchema :=
  match env k with
  | some s => .ok s
  | none => .error (.idlNotFound k)

/-- Cache-free result type: value and cursor only. -/
abbrev DecResNC := Except RosPeekError (JValue × Cursor)

/-- Cache-free `decode_primitive`. -/
def decodePrimWithNC (env : SchemaEnv)
    (recur : MessageSchema → Cursor → DecResNC)
    (field : MessageField) (c : Cursor) : DecResNC :=
  match field.type_name with
  | "boolean" => (decode_bool c).map (fun p => (JValue.vBool p.1, p.2))
  | "octet" => (decode_u8 c).map (fun p => (JValue.vInt p.1, p.2))
  | "char" => (decode_char c).map (fun p => (JValue.vStr (String.mk [p.1]), p.2))
  | "float" => (decode_f32 c).map (fun p => (JValue.vF32 p.1, p.2))
  | "double" => (decode_f64 c).map (fun p => (JValue.vF64 p.1, p.2))
  | "int8" => (decode_i8 c).map (fun p => (JValue.vInt p.1, p.2))
  | "uint8" => (decode_u8 c).map (fun p => (JValue.vInt p.1, p.2))
  | "int16" => (decode_i16 c).map (fun p => (JValue.vInt p.1, p.2))
  | "uint16" => (decode_u16 c).map (fun p => (JValue.vInt p.1, p.2))
  | "int32" => (decode_i32 c).map (fun p => (JValue.vInt p.1, p.2))
  | "uint32" => (decode_u32 c).map (fun p => (JValue.vInt p.1, p.2))
  | "int64" => (decode_i64 c).map (fun p => (JValue.vInt p.1, p.2))
  | "uint64" => (decode_u64 c).map (fun p => (JValue.vInt p.1, p.2))
  | "string" => (decode_string c).map (fun p => (JValue.vStr p.1, p.2))
  | "builtin_interfaces/msg/Time" =>
    (decodeTimeLike c).map
      (fun p => (JValue.vObj [("sec", .vInt p.1.1), ("nanosec", .vInt p.1.2)], p.2))
  | "builtin_interfaces/msg/Duration" =>
    (decodeTimeLike c).map
      (fun p => (JValue.vObj [("sec", .vInt p.1.1), ("nanosec", .vInt p.1.2)], p.2))
  | _ => do
    let nested ← getSchemaNC env field.type_name
    recur nested c

/-- Cache-free element loop. -/
def decodeElemsNC (elem : Cursor → DecResNC) :
    Nat → Cursor → Except RosPeekError (List JValue × Cursor)
  | 0, c => .ok ([], c)
  | n + 1, c => do
    let (v, c1) ← elem c
    let (vs, c2) ← decodeElemsNC elem n c1
    .ok (v :: vs, c2)

/-- Cache-free `decode_iterable`. -/
def decodeIterWithNC (env : SchemaEnv)
    (recur : MessageSchema → Cursor → DecResNC)
    (field : MessageField) (c : Cursor) : DecResNC :=
  match field.field_type with
  | .Array _ n =>
    (decodeElemsNC (decodePrimWithNC env recur field) n c).map
      (fun p => (.vArr p.1, p.2))
  | .Sequence _ => do
    let (len, c1) ← decode_u32 c
    (decodeElemsNC (decodePrimWithNC env recur field) len c1).map
      (fun p => (.vArr p.1, p.2))
  | .Object _ =>
    (decodeElemsNC (decodePrimWithNC env recur field) 0 c).map
      (fun p => (.vArr p.1, p.2))

/-- Cache-free field loop. -/
def decodeFieldsWithNC (env : SchemaEnv)
    (recur : MessageSchema → Cursor → DecResNC) :
    List MessageField → Cursor → List (String × JValue) →
    Except RosPeekError (List (String × JValue) × Cursor)
  | [], c, acc => .ok (acc, c)
  | f :: fs, c, acc => do
    let (v, c1) ←
      if f.is_iterable then decodeIterWithNC env recur f c
      else decodePrimWithNC env recur f c
    decodeFieldsWithNC env recur fs c1 (insertKV acc f.name v)

/-- Cache-free single decode level. -/
def decodeStepNC (env : SchemaEnv)
    (recur : MessageSchema → Cursor → DecResNC)
    (schema : MessageSchema) (c : Cursor) : DecResNC :=
  (decodeFieldsWithNC env recur schema.fields c []).map
    (fun p => (.vObj p.1, p.2))

/-- Cache-free `decode` with the same fuel discipline as `decodeSchema`. -/
def decodeSchemaNC (env : SchemaEnv) : Nat → MessageSchema → Cursor → DecResNC
  | 0, _, _ => .error .fuelExhausted
  | fuel + 1, schema, c => decodeStepNC env (decodeSchemaNC env fuel) schema c

/-- Cache-free decode of one raw message: the observable outcome of decoding a
payload with a fresh (or any coherent) decoder. -/
def decodeMsgNC (env : SchemaEnv) (fuel : Nat) (schema : MessageSchema)
    (payload : List Nat) : Except RosPeekError JValue :=
  if 4 ≤ payload.length then
    (decodeSchemaNC env fuel schema ⟨payload.drop 4, 0, to_endianness payload⟩).map (·.1)
  else .error .panicked

/-- Cache-free sequential decode of a payload list, stopping at the first
failing payload. -/
def decodeSegmentNC (env : SchemaEnv) (fuel : Nat) (schema : MessageSchema) :
    List (List Nat) → Except RosPeekError (List JValue)
  | [] => .ok []
  | p :: ps => do
    let v ← decodeMsgNC env fuel schema p
    let vs ← decodeSegmentNC env fuel schema ps
    .ok (v :: vs)

/-! ## Flattening and tabular export (`try_decode_csv`) -/

mutual
/-- Modelled from the spec: `flatten_json` is re-exported by the core crate
and called by `try_decode_csv` (cdr.rs:321), but its defining module is not
under src/.  Per the spec it projects a document into a flat column space,
joining nested keys with a `.` separator and indexing array/sequence elements
by position; scalar leaves keep their value.  `flattenValue` flattens one
value under a given flattened key. -/
def flattenValue (key : String) : JValue → List (String × JValue)
  | .vBool b => [(key, .vBool b)]
  | .vInt n => [(key, .vInt n)]
  | .vF32 n => [(key, .vF32 n)]
  | .vF64 n => [(key, .vF64 n)]
  | .vStr s => [(key, .vStr s)]
  | .vObj es => flattenEntries key es
  | .vArr xs => flattenItems key 0 xs

/-- Modelled from the spec: nested object entries flattened under
`key ++ "." ++ field`. -/
def flattenEntries (key : String) : List (String × JValue) → List (String × JValue)
  | [] => []
  | (k, v) :: rest => flattenValue (key ++ "." ++ k) v ++ flattenEntries key rest

/-- Modelled from the spec: list elements flattened under
`key ++ "." ++ index`. -/
def flattenItems (key : String) (i : Nat) : List JValue → List (String × JValue)
  | [] => []
  | v :: rest => flattenValue (key ++ "." ++ toString i) v ++ flattenItems key (i + 1) rest
end

/-- Modelled from the spec: `flatten_json` on a document's entries —
top-level keys are used as-is, nested structure is flattened below them. -/
def flatten_json (entries : List (String × JValue)) : List (String × JValue) :=
  entries.flatMap (fun p => flattenValue p.1 p.2)

/-- Lookup in a flattened document (`result.get(col)` on the map). -/
def lookupKV (entries : List (String × JValue)) (k : String) : Option JValue :=
  (entries.find? (fun p => p.1 = k)).map (·.2)

/-- `serde_json::Value::to_string()` as used for CSV cells (cdr.rs:325),
restricted to the scalar leaves flattening produces.  JSON string escaping is
elided (claims do not depend on it) and float text — outside the shallow
embedding — is rendered from the bit pattern. -/
def jsonToString : JValue → String
  | .vBool b => if b then "true" else "false"
  | .vInt n => toString n
  | .vF32 bits => "f32:" ++ toString bits
  | .vF64 bits => "f64:" ++ toString bits
  | .vStr s => "\"" ++ s ++ "\""
  | .vArr _ => "[]"
  | .vObj _ => "\x7b\x7d"

/-- Lexicographic comparison of char lists by code point; on UTF-8 data this
coincides with Rust's byte-lexicographic `Ord for String`. -/
def charsLt : List Char → List Char → Bool
  | [], [] => false
  | [], _ :: _ => true
  | _ :: _, [] => false
  | a :: as, b :: bs =>
    if a.toNat < b.toNat then true
    else if b.toNat < a.toNat then false
    else charsLt as bs

/-- Rust's `Ord for String` used by `BTreeSet<String>`. -/
def strLt (a b : String) : Bool := charsLt a.data b.data

/-- `BTreeSet<String>::insert`: the set is modelled as a strictly sorted
list. -/
def btreeInsert : List String → String → List String
  | [], x => [x]
  | y :: ys, x =>
    if strLt x y then x :: y :: ys
    else if x = y then y :: ys
    else y :: btreeInsert ys x

/-- `BTreeSet<String>::extend` over a list of keys. -/
def btreeExtend (s : List String) (xs : List String) : List String :=
  xs.foldl btreeInsert s

/-- The loop of `fn try_decode_csv` (cdr.rs:317-329): for each decoded value
that is an object, flatten it, extend the accumulated column set with the
flattened keys, and emit one row holding — for each column accumulated SO FAR
— the cell `result.get(col).map(to_string).unwrap_or_default()`. -/
def try_decode_csv_rows :
    List JValue → List String → List (List String) →
    List String × List (List String)
  | [], columns, rows => (columns, rows)
  | v :: vs, columns, rows =>
    match v with
    | .vObj object =>
      let result := flatten_json object
      let columns' := btreeExtend columns (result.map (·.1))
      let row := columns'.map
        (fun col => ((lookupKV result col).map jsonToString).getD "")
      try_decode_csv_rows vs columns' (rows ++ [row])
    | _ => try_decode_csv_rows vs columns rows

/-- `fn try_decode_csv` applied to an already-decoded document list. -/
def try_decode_csv_from (values : List JValue) :
    List String × List (List String) :=
  try_decode_csv_rows values [] []

/-- `fn try_decode_csv` (cdr.rs:311-331): decode the topic to JSON, then fold
the documents into columns and rows. -/
def try_decode_csv (env : SchemaEnv) (fuel : Nat) (reader : BagData)
    (topic : String) (segments : List (List (List Nat))) :
    Except RosPeekError (List String × List (List String)) :=
  (try_decode_json env fuel reader topic segments).map try_decode_csv_from

/-- Reference column accumulator: the column set after folding a prefix of
the documents. -/
def csvColsFrom (cols : List String) (docs : List (List (String × JValue))) :
    List String :=
  docs.foldl (fun c d => btreeExtend c ((flatten_json d).map (·.1))) cols

/-- Reference row list: row `i` is built over the columns accumulated through
document `i`. -/
def csvRowsFrom (cols : List String) :
    List (List (String × JValue)) → List (List String)
  | [] => []
  | d :: ds =>
    ((btreeExtend cols ((flatten_json d).map (·.1))).map
      (fun col => ((lookupKV (flatten_json d) col).map jsonToString).getD "")) ::
      csvRowsFrom (btreeExtend cols ((flatten_json d).map (·.1))) ds

/-! ## Type-declaration classification (`to_field_type`, schema.rs) -/

/-- `str::replace("::", "/")`: non-overlapping left-to-right replacement of
every `::` by `/`. -/
def replaceSep : List Char → List Char
  | ':' :: ':' :: rest => '/' :: replaceSep rest
  | c :: rest => c :: replaceSep rest
  | [] => []

/-- The backtracking search of the regex `^(?P<type>.+)__(?P<num>\d+)$` over
the REVERSED token: digits are consumed from the right end one at a time
(shortest digit group first — the greedy `.+` takes the longest possible
base), stopping at the first position where the two preceding characters are
`__` and at least one character is left for the base.  `acc` holds the digits
consumed so far, in forward order. -/
def revLook (acc : List Char) : List Char → Option (List Char × List Char)
  | [] => none
  | c :: rest =>
    if c = '_' then
      match rest with
      | '_' :: b :: bs => some ((b :: bs).reverse, acc)
      | _ => none
    else if c.isDigit then revLook (c :: acc) rest
    else none

/-- Whether (and how) the regex `^(?P<type>.+)__(?P<num>\d+)$` matches a
token: `some (base, digits)` with the greedy (longest-base) capture.  The
regex `.` does not match a newline, so a token containing one never matches
(the newline would necessarily fall inside `type`). -/
def arrayMatch (s : List Char) : Option (List Char × List Char) :=
  if s.any (fun ch => ch = '\n') then none
  else
    match s.reverse with
    | c :: rest => if c.isDigit then revLook [c] rest else none
    | [] => none

/-- Digit-string value, `10*acc + digit` left to right. -/
def digitsToNat (ds : List Char) : Nat :=
  ds.foldl (fun a c => 10 * a + (c.toNat - 48)) 0

/-- `str::parse::<usize>().unwrap_or(0)` on an all-digit string: the value
when it fits the 64-bit `usize` of the compilation target, else the
`unwrap_or` default 0. -/
def parse_usize_or_zero (ds : List Char) : Nat :=
  if digitsToNat ds < 2 ^ 64 then digitsToNat ds else 0

/-- `fn to_field_type(s: &str) -> FieldType` (schema.rs:190-207): first the
`<base>__<digits>` regex (array), else the `sequence<INNER>` shape, else an
object; namespace separators are normalized in each captured name. -/
def to_field_type (s : String) : FieldType :=
  match arrayMatch s.data with
  | some (base, ds) =>
    .Array (String.mk (replaceSep base)) (parse_usize_or_zero ds)
  | none =>
    if s.data.take 9 = "sequence<".data ∧ s.data.getLast? = some '>' then
      .Sequence (String.mk (replaceSep ((s.data.drop 9).dropLast)))
    else
      .Object (String.mk (replaceSep s.data))

/-! ## Schema resolution (`find_ros_idl_path`, `parse_idl_to_schema`,
`MessageSchema::try_from`, schema.rs).  The filesystem is modelled as
`fs : String → Option String` (path to file content, `none` when the file
does not exist) and the `AMENT_PREFIX_PATH` variable as `Option String`. -/

/-- `str::split(sep)` on a single-character separator, structurally on the
char list (`"a/b"` → `["a","b"]`, `""` → `[""]`, `"a/"` → `["a",""]`). -/
def splitOnChar (sep : Char) : List Char → List (List Char)
  | [] => [[]]
  | c :: rest =>
    if c = sep then [] :: splitOnChar sep rest
    else
      match splitOnChar sep rest with
      | [] => [[c]]
      | t :: ts => (c :: t) :: ts

/-- `str::split` at the `String` level. -/
def strSplitOn (s : String) (sep : Char) : List String :=
  (splitOnChar sep s.data).map String.mk

/-- The candidate path `base/share/<package>/<msg>/<name>.idl` built by
`find_ros_idl_path` (schema.rs:105-109); `PathBuf::join` is rendered with
`/` separators. -/
def idl_candidate (base package msg_or_srv msg_name : String) : String :=
  base ++ "/share/" ++ package ++ "/" ++ msg_or_srv ++ "/" ++ msg_name ++ ".idl"

/-- The `for base_path in ament_paths.split(':')` loop (schema.rs:104-113):
return the first candidate that exists. -/
def firstExisting (fsExists : String → Bool)
    (package msg_or_srv msg_name : String) : List String → Option String
  | [] => none
  | base :: rest =>
    if fsExists (idl_candidate base package msg_or_srv msg_name) then
      some (idl_candidate base package msg_or_srv msg_name)
    else firstExisting fsExists package msg_or_srv msg_name rest

/-- `fn find_ros_idl_path(type_name)` (schema.rs:93-115): split the type name
on `/` (three components required, extras ignored), require the middle
component to be `msg`, then scan the `AMENT_PREFIX_PATH` entries in order. -/
def find_ros_idl_path (ament : Option String) (fsExists : String → Bool)
    (type_name : String) : Option String :=
  match strSplitOn type_name '/' with
  | package :: msg_or_srv :: msg_name :: _ =>
    if msg_or_srv = "msg" then
      match ament with
      | none => none
      | some ap => firstExisting fsExists package msg_or_srv msg_name (strSplitOn ap ':')
    else none
  | _ => none

/-- `str::trim` (whitespace both ends). -/
def strTrim (s : String) : String :=
  String.mk (((s.data.dropWhile Char.isWhitespace).reverse.dropWhile
    Char.isWhitespace).reverse)

/-- `str::trim_end_matches(';')`: strip every trailing `;`. -/
def trimEndSemis (l : List Char) : List Char :=
  (l.reverse.dropWhile (fun c => c = ';')).reverse

/-- `str::split_whitespace`: maximal runs of non-whitespace characters. -/
def splitWs : List Char → List (List Char)
  | [] => []
  | c :: rest =>
    if c.isWhitespace then splitWs rest
    else
      match rest with
      | [] => [[c]]
      | c2 :: _ =>
        if c2.isWhitespace then [c] :: splitWs rest
        else
          match splitWs rest with
          | [] => [[c]]
          | t :: ts => (c :: t) :: ts

/-- `fn parse_idl_to_schema` (schema.rs:132-166) applied to the file content:
trim each line, keep non-empty lines ending in `;`, strip the trailing `;`s,
and for each line tokenizing into exactly two whitespace-separated tokens
emit a field `(name := token2, type := to_field_type token1)`; other lines
are skipped, not errored. -/
def parse_idl_to_schema (content : String) (type_name : String) : MessageSchema :=
  let ls := ((strSplitOn content '\n').map strTrim).filter
    (fun l => !(l.data.isEmpty) && l.data.getLast? = some ';')
  let fields := ls.foldr
    (fun line acc =>
      match splitWs (trimEndSemis line.data) with
      | [t1, t2] => ⟨String.mk t2, to_field_type (String.mk t1)⟩ :: acc
      | _ => acc) []
  ⟨type_name, fields⟩

/-- The per-element refinement relation: under a coherent cache, the cached
decoder computes the reference value and cursor, and leaves the cache
coherent. -/
def ElemOK (env : SchemaEnv) (elem : Cursor → Cache → DecRes)
    (elemNC : Cursor → DecResNC) : Prop :=
  ∀ c cache, Coherent env cache →
    ((elem c cache).map (fun p => (p.1, p.2.1)) = elemNC c) ∧
    (∀ v c' cache', elem c cache = .ok (v, c', cache') → Coherent env cache')

/-- The same relation for schema-level decoders. -/
def RecurOK (env : SchemaEnv)
    (recur : MessageSchema → Cursor → Cache → DecRes)
    (recurNC : MessageSchema → Cursor → DecResNC) : Prop :=
  ∀ schema, ElemOK env (recur schema) (recurNC schema)

/-- Concrete schema environment for the C1 witness: one resolvable type. -/
def c1Env : SchemaEnv := fun k =>
  if k = "std_msgs/msg/X" then
    some ⟨"std_msgs/msg/X", [⟨"v", .Object "uint8"⟩]⟩
  else none

/-- Concrete reader for the C1 witness: one topic with two raw messages. -/
def c1Reader : BagData :=
  ⟨[⟨"t", "std_msgs/msg/X"⟩],
    fun topic => if topic = "t" then [[0, 1, 0, 0, 7], [0, 1, 0, 0, 9]] else []⟩

/-- `impl TryFrom<&str> for MessageSchema` (schema.rs:31-36): locate the IDL
file (else `IdlNotFound`, the spec's `SchemaNotFound`) and parse it.  A file
that exists is readable in this model; an unreadable file is an io error. -/
def MessageSchema.try_from (ament : Option String) (fs : String → Option String)
    (type_name : String) : Except RosPeekError MessageSchema :=
  match find_ros_idl_path ament (fun p => (fs p).isSome) type_name with
  | none => .error (.idlNotFound type_name)
  | some path =>
    match fs path with
    | some content => .ok (parse_idl_to_schema content type_name)
    | none => .error .ioError

/-! ## Basic lemmas about the byte-level reads -/

theorem readExact_ok {c : Cursor} {n : Nat} {bs : List Nat} {c' : Cursor}
    (h : readExact c n = .ok (bs, c')) :
    bs = (c.bytes.drop c.pos).take n ∧
    c' = { c with pos := c.pos + n } ∧ c.pos + n ≤ c.bytes.length := by
  unfold readExact at h
  split at h
  · cases h
    exact ⟨rfl, rfl, by assumption⟩
  · cases h

theorem align_to_ok {c : Cursor} {a : Nat} {c' : Cursor}
    (ha : 0 < a) (h : align_to c a = .ok c') :
    c'.bytes = c.bytes ∧ c'.endianness = c.endianness ∧
    c'.pos % a = 0 ∧ c.pos ≤ c'.pos ∧ c'.pos < c.pos + a := by
  unfold align_to at h
  have hq := Nat.div_add_mod c.pos a
  have hral : c.pos % a < a := Nat.mod_lt _ ha
  by_cases hr : c.pos % a = 0
  · have hpad : (a - c.pos % a) % a = 0 := by
      rw [hr, Nat.sub_zero, Nat.mod_self]
    rw [hpad] at h
    simp only [gt_iff_lt, Nat.lt_irrefl, if_false] at h
    cases h
    exact ⟨rfl, rfl, hr, Nat.le_refl _, by omega⟩
  · have hlt : a - c.pos % a < a := by omega
    have hpad : (a - c.pos % a) % a = a - c.pos % a := Nat.mod_eq_of_lt hlt
    rw [hpad] at h
    have hpos : 0 < a - c.pos % a := by omega
    simp only [gt_iff_lt, hpos, if_true] at h
    cases hre : readExact c (a - c.pos % a) with
    | error e => rw [hre] at h; simp [Except.map] at h
    | ok p =>
      rw [hre] at h
      simp only [Except.map] at h
      cases h
      obtain ⟨_, hc2, _⟩ := readExact_ok hre
      rw [hc2]
      refine ⟨rfl, rfl, ?_, ?_, ?_⟩
      · show (c.pos + (a - c.pos % a)) % a = 0
        have h2 : c.pos + (a - c.pos % a) = a + a * (c.pos / a) := by omega
        rw [h2, Nat.add_mul_mod_self_left]
        exact Nat.mod_self a
      · show c.pos ≤ c.pos + (a - c.pos % a)
        omega
      · show c.pos + (a - c.pos % a) < c.pos + a
        omega

/-- C10: For every input buffer of fewer than 4 bytes, `CdrDecoder::new` and
`CdrDecoder::reset` panic (the unchecked slice `data[4..]` is out of bounds)
instead of returning an error; a buffer of at least 4 bytes is the unchecked
precondition of construction and reset.  The panic is modelled as `none`. -/
theorem c10_short_buffer_panics (data : List Nat) (d : CdrDecoder) :
    (CdrDecoder.new data = none ↔ data.length < 4) ∧
    (CdrDecoder.reset d data = none ↔ data.length < 4) ∧
    (4 ≤ data.length → (CdrDecoder.new data).isSome ∧ (CdrDecoder.reset d data).isSome) := by
  unfold CdrDecoder.new CdrDecoder.reset
  by_cases h : 4 ≤ data.length <;> simp [h] <;> omega

/-- C10 witness: the 3-byte buffer panics, the 4-byte buffer does not. -/
theorem c10_short_buffer_panics_witness :
    4 ≤ ([0, 1, 0, 0] : List Nat).length ∧
    (CdrDecoder.new [0, 1, 0, 0]).isSome ∧
    (CdrDecoder.reset ⟨⟨[], 0, .Little⟩, []⟩ [0, 1, 0, 0]).isSome :=
  ⟨by decide,
    (c10_short_buffer_panics [0, 1, 0, 0] ⟨⟨[], 0, .Little⟩, []⟩).2.2 (by decide)⟩

/-- C3: the decoder's endianness is fully determined by the byte at offset 1
(`0x00` selects big-endian, any other value or an absent byte selects
little-endian), and construction positions the cursor past the first 4 header
bytes without interpreting them further. -/
theorem c3_endianness_from_byte1 (data : List Nat) :
    (to_endianness data = .Big ↔ data.get? 1 = some 0) ∧
    (to_endianness data = .Little ↔ data.get? 1 ≠ some 0) ∧
    (∀ d, CdrDecoder.new data = some d →
      d.cursor.bytes = data.drop 4 ∧ d.cursor.pos = 0 ∧
      d.cursor.endianness = to_endianness data ∧ d.cache = []) := by
  refine ⟨?_, ?_, ?_⟩
  · unfold to_endianness
    cases h : data.get? 1 with
    | none => simp
    | some b =>
      match b with
      | 0 => simp
      | 1 => simp
      | n + 2 => simp
  · unfold to_endianness
    cases h : data.get? 1 with
    | none => simp
    | some b =>
      match b with
      | 0 => simp
      | 1 => simp
      | n + 2 => simp
  · intro d hd
    unfold CdrDecoder.new at hd
    split at hd
    · cases hd
      exact ⟨rfl, rfl, rfl, rfl⟩
    · cases hd

/-- C3 witness: a buffer with `0x00` at offset 1 decodes big-endian, a buffer
with `0x01` little-endian, and construction on a concrete 5-byte buffer skips
exactly the 4 header bytes. -/
theorem c3_endianness_from_byte1_witness :
    (to_endianness [0, 0, 0, 0, 7] = .Big ↔ [0, 0, 0, 0, 7].get? 1 = some 0) ∧
    ((⟨⟨[7], 0, .Big⟩, []⟩ : CdrDecoder).cursor.bytes = [0, 0, 0, 0, 7].drop 4 ∧
      (⟨⟨[7], 0, .Big⟩, []⟩ : CdrDecoder).cursor.pos = 0 ∧
      (⟨⟨[7], 0, .Big⟩, []⟩ : CdrDecoder).cursor.endianness = to_endianness [0, 0, 0, 0, 7] ∧
      (⟨⟨[7], 0, .Big⟩, []⟩ : CdrDecoder).cache = []) :=
  ⟨(c3_endianness_from_byte1 [0, 0, 0, 0, 7]).1,
    (c3_endianness_from_byte1 [0, 0, 0, 0, 7]).2.2 ⟨⟨[7], 0, .Big⟩, []⟩ rfl⟩

theorem alignedBytes_ok {c : Cursor} {a : Nat} {bs : List Nat} {c' : Cursor}
    (h : alignedBytes c a = .ok (bs, c')) :
    ∃ ca, align_to c a = .ok ca ∧ readExact ca a = .ok (bs, c') := by
  unfold alignedBytes at h
  cases hal : align_to c a with
  | error e =>
    rw [hal] at h
    simp only [Bind.bind, Except.bind] at h
    exact Except.noConfusion h
  | ok ca =>
    rw [hal] at h
    simp only [Bind.bind, Except.bind] at h
    exact ⟨ca, rfl, h⟩

theorem alignedBytes_pos {c : Cursor} {a : Nat} {bs : List Nat} {c' : Cursor}
    (ha : 0 < a) (h : alignedBytes c a = .ok (bs, c')) :
    ∃ p, p % a = 0 ∧ c.pos ≤ p ∧ p < c.pos + a ∧ c'.pos = p + a ∧
      bs = (c.bytes.drop p).take a ∧ c'.bytes = c.bytes ∧
      c'.endianness = c.endianness := by
  obtain ⟨ca, hal, hre⟩ := alignedBytes_ok h
  obtain ⟨hb, he, hm, hle, hlt⟩ := align_to_ok ha hal
  obtain ⟨hbs, hc', _⟩ := readExact_ok hre
  refine ⟨ca.pos, hm, hle, hlt, ?_, ?_, ?_, ?_⟩
  · rw [hc']
  · rw [hbs, hb]
  · rw [hc', hb]
  · rw [hc', he]

theorem aligned_value_ok {α : Type} {w : Nat} {G : List Nat × Cursor → α}
    {c : Cursor} {v : α} {c' : Cursor}
    (h : (alignedBytes c w).map (fun p => (G p, p.2)) = .ok (v, c')) :
    ∃ bs, alignedBytes c w = .ok (bs, c') ∧ v = G (bs, c') := by
  cases hab : alignedBytes c w with
  | error e => rw [hab] at h; exact Except.noConfusion h
  | ok p =>
    rw [hab] at h
    simp only [Except.map] at h
    cases h
    exact ⟨p.1, rfl, rfl⟩

/-- C4: every multi-byte read first advances the cursor to the primitive's
natural alignment (2 for 16-bit, 4 for 32-bit, 8 for 64-bit reads), measured
from the position just past the header; in particular a `boolean` field
followed by an `int32` field skips exactly 3 padding bytes, the `int32` being
read from offsets 4–7. -/
theorem c4_alignment :
    (∀ (c : Cursor) (a : Nat) (c' : Cursor), 0 < a → align_to c a = .ok c' →
      c'.pos % a = 0 ∧ c.pos ≤ c'.pos ∧ c'.pos < c.pos + a ∧ c'.bytes = c.bytes) ∧
    (∀ c v c', decode_u16 c = .ok (v, c') →
      ∃ p, p % 2 = 0 ∧ c.pos ≤ p ∧ p < c.pos + 2 ∧ c'.pos = p + 2) ∧
    (∀ c v c', decode_i16 c = .ok (v, c') →
      ∃ p, p % 2 = 0 ∧ c.pos ≤ p ∧ p < c.pos + 2 ∧ c'.pos = p + 2) ∧
    (∀ c v c', decode_u32 c = .ok (v, c') →
      ∃ p, p % 4 = 0 ∧ c.pos ≤ p ∧ p < c.pos + 4 ∧ c'.pos = p + 4) ∧
    (∀ c v c', decode_i32 c = .ok (v, c') →
      ∃ p, p % 4 = 0 ∧ c.pos ≤ p ∧ p < c.pos + 4 ∧ c'.pos = p + 4) ∧
    (∀ c v c', decode_f32 c = .ok (v, c') →
      ∃ p, p % 4 = 0 ∧ c.pos ≤ p ∧ p < c.pos + 4 ∧ c'.pos = p + 4) ∧
    (∀ c v c', decode_u64 c = .ok (v, c') →
      ∃ p, p % 8 = 0 ∧ c.pos ≤ p ∧ p < c.pos + 8 ∧ c'.pos = p + 8) ∧
    (∀ c v c', decode_i64 c = .ok (v, c') →
      ∃ p, p % 8 = 0 ∧ c.pos ≤ p ∧ p < c.pos + 8 ∧ c'.pos = p + 8) ∧
    (∀ c v c', decode_f64 c = .ok (v, c') →
      ∃ p, p % 8 = 0 ∧ c.pos ≤ p ∧ p < c.pos + 8 ∧ c'.pos = p + 8) ∧
    (∀ (env : SchemaEnv) (recur : MessageSchema → Cursor → Cache → DecRes)
        (cache : Cache) (e : Endianness) (b0 b1 b2 b3 b4 b5 b6 b7 : Nat),
      decodeFieldsWith env recur
          [⟨"flag", .Object "boolean"⟩, ⟨"value", .Object "int32"⟩]
          ⟨[b0, b1, b2, b3, b4, b5, b6, b7], 0, e⟩ cache [] =
        .ok ([("flag", .vBool (b0 != 0)),
              ("value", .vInt (toSigned 32 (combineBytes e [b4, b5, b6, b7])))],
          ⟨[b0, b1, b2, b3, b4, b5, b6, b7], 8, e⟩, cache)) := by
  have hwide : ∀ (w : Nat), 0 < w → ∀ {α : Type} (G : List Nat × Cursor → α)
      (c : Cursor) (v : α) (c' : Cursor),
      (alignedBytes c w).map (fun p => (G p, p.2)) = .ok (v, c') →
      ∃ p, p % w = 0 ∧ c.pos ≤ p ∧ p < c.pos + w ∧ c'.pos = p + w := by
    intro w hw α G c v c' h
    obtain ⟨bs, hab, _⟩ := aligned_value_ok h
    obtain ⟨p, h1, h2, h3, h4, _⟩ := alignedBytes_pos hw hab
    exact ⟨p, h1, h2, h3, h4⟩
  refine ⟨?_, ?_, ?_, ?_, ?_, ?_, ?_, ?_, ?_, ?_⟩
  · intro c a c' ha h
    obtain ⟨h1, _, h2, h3, h4⟩ := align_to_ok ha h
    exact ⟨h2, h3, h4, h1⟩
  · intro c v c' h; exact hwide 2 (by decide) _ c v c' h
  · intro c v c' h; exact hwide 2 (by decide) _ c v c' h
  · intro c v c' h; exact hwide 4 (by decide) _ c v c' h
  · intro c v c' h; exact hwide 4 (by decide) _ c v c' h
  · intro c v c' h; exact hwide 4 (by decide) _ c v c' h
  · intro c v c' h; exact hwide 8 (by decide) _ c v c' h
  · intro c v c' h; exact hwide 8 (by decide) _ c v c' h
  · intro c v c' h; exact hwide 8 (by decide) _ c v c' h
  · intro env recur cache e b0 b1 b2 b3 b4 b5 b6 b7
    rfl

/-- C4 witness: a concrete successful `align_to` and the boolean/int32 layout
on concrete bytes. -/
theorem c4_alignment_witness :
    ((⟨[9, 9, 9, 9], 4, .Little⟩ : Cursor).pos % 4 = 0 ∧
      (⟨[9, 9, 9, 9], 1, .Little⟩ : Cursor).pos ≤ (⟨[9, 9, 9, 9], 4, .Little⟩ : Cursor).pos ∧
      (⟨[9, 9, 9, 9], 4, .Little⟩ : Cursor).pos < (⟨[9, 9, 9, 9], 1, .Little⟩ : Cursor).pos + 4 ∧
      (⟨[9, 9, 9, 9], 4, .Little⟩ : Cursor).bytes = (⟨[9, 9, 9, 9], 1, .Little⟩ : Cursor).bytes) ∧
    decodeFieldsWith (fun _ => none) (fun _ _ _ => .error .fuelExhausted)
        [⟨"flag", .Object "boolean"⟩, ⟨"value", .Object "int32"⟩]
        ⟨[1, 9, 9, 9, 42, 0, 0, 0], 0, .Little⟩ [] [] =
      .ok ([("flag", .vBool ((1 : Nat) != 0)),
            ("value", .vInt (toSigned 32 (combineBytes .Little [42, 0, 0, 0])))],
        ⟨[1, 9, 9, 9, 42, 0, 0, 0], 8, .Little⟩, []) :=
  ⟨c4_alignment.1 ⟨[9, 9, 9, 9], 1, .Little⟩ 4 ⟨[9, 9, 9, 9], 4, .Little⟩
      (by decide) rfl,
    c4_alignment.2.2.2.2.2.2.2.2.2 (fun _ => none) (fun _ _ _ => .error .fuelExhausted)
      [] .Little 1 9 9 9 42 0 0 0⟩

theorem decodeElems_ok_length (elem : Cursor → Cache → DecRes) :
    ∀ (n : Nat) (c : Cursor) (cache : Cache) (vs : List JValue) (c' : Cursor)
      (cache' : Cache),
      decodeElems elem n c cache = .ok (vs, c', cache') → vs.length = n := by
  intro n
  induction n with
  | zero =>
    intro c cache vs c' cache' h
    unfold decodeElems at h
    cases h
    rfl
  | succ n ih =>
    intro c cache vs c' cache' h
    unfold decodeElems at h
    cases he : elem c cache with
    | error e =>
      rw [he] at h
      simp only [Bind.bind, Except.bind] at h
      exact Except.noConfusion h
    | ok q =>
      rw [he] at h
      simp only [Bind.bind, Except.bind] at h
      cases hr : decodeElems elem n q.2.1 q.2.2 with
      | error e =>
        rw [hr] at h
        exact Except.noConfusion h
      | ok r =>
        rw [hr] at h
        simp only at h
        cases h
        simp [List.length_cons, ih q.2.1 q.2.2 r.1 r.2.1 r.2.2 (by rw [hr])]

/-- C2: an `Array(T, N)` field decodes exactly `N` elements with no wire
length prefix, a `Sequence(T)` field first reads one 4-byte-aligned `uint32`
length `L` from the wire and then decodes exactly `L` elements, and the
result is the ordered list of the decoded elements. -/
theorem c2_iterable_decode :
    (∀ (env : SchemaEnv) (recur : MessageSchema → Cursor → Cache → DecRes)
        (name t : String) (n : Nat) (c : Cursor) (cache : Cache),
      decodeIterWith env recur ⟨name, .Array t n⟩ c cache =
        (decodeElems (decodePrimWith env recur ⟨name, .Array t n⟩) n c cache).map
          (fun p => (.vArr p.1, p.2.1, p.2.2))) ∧
    (∀ (env : SchemaEnv) (recur : MessageSchema → Cursor → Cache → DecRes)
        (name t : String) (c : Cursor) (cache : Cache),
      decodeIterWith env recur ⟨name, .Sequence t⟩ c cache = do
        let (len, c1) ← decode_u32 c
        (decodeElems (decodePrimWith env recur ⟨name, .Sequence t⟩) len c1 cache).map
          (fun p => (.vArr p.1, p.2.1, p.2.2))) ∧
    (∀ (elem : Cursor → Cache → DecRes) (n : Nat) (c : Cursor) (cache : Cache)
        (vs : List JValue) (c' : Cursor) (cache' : Cache),
      decodeElems elem n c cache = .ok (vs, c', cache') → vs.length = n) ∧
    (∀ (c : Cursor) (L : Nat) (c1 : Cursor), decode_u32 c = .ok (L, c1) →
      ∃ p, p % 4 = 0 ∧ c.pos ≤ p ∧ p < c.pos + 4 ∧ c1.pos = p + 4 ∧
        L = combineBytes c.endianness ((c.bytes.drop p).take 4)) := by
  refine ⟨fun _ _ _ _ _ _ _ => rfl, fun _ _ _ _ _ _ => rfl,
    fun elem => decodeElems_ok_length elem, ?_⟩
  intro c L c1 h
  unfold decode_u32 at h
  obtain ⟨bs, hab, hv⟩ := aligned_value_ok h
  obtain ⟨p, h1, h2, h3, h4, h5, h6, h7⟩ := alignedBytes_pos (by decide) hab
  refine ⟨p, h1, h2, h3, h4, ?_⟩
  rw [hv]
  show combineBytes c1.endianness bs = _
  rw [h7, h5]

/-- C2 witness: two `uint8` elements decode to a 2-element list, and a
concrete sequence length prefix is read 4-byte aligned. -/
theorem c2_iterable_decode_witness :
    ([JValue.vInt 5, JValue.vInt 6].length = 2) ∧
    (∃ p, p % 4 = 0 ∧ (⟨[7, 0, 0, 0], 0, .Little⟩ : Cursor).pos ≤ p ∧
      p < (⟨[7, 0, 0, 0], 0, .Little⟩ : Cursor).pos + 4 ∧
      (⟨[7, 0, 0, 0], 4, .Little⟩ : Cursor).pos = p + 4 ∧
      7 = combineBytes (⟨[7, 0, 0, 0], 0, .Little⟩ : Cursor).endianness
        (((⟨[7, 0, 0, 0], 0, .Little⟩ : Cursor).bytes.drop p).take 4)) :=
  ⟨c2_iterable_decode.2.2.1
      (decodePrimWith (fun _ => none) (fun _ _ _ => .error .fuelExhausted)
        ⟨"v", .Object "uint8"⟩)
      2 ⟨[5, 6], 0, .Little⟩ [] [JValue.vInt 5, JValue.vInt 6]
      ⟨[5, 6], 2, .Little⟩ [] rfl,
    c2_iterable_decode.2.2.2 ⟨[7, 0, 0, 0], 0, .Little⟩ 7
      ⟨[7, 0, 0, 0], 4, .Little⟩ rfl⟩

/-- C5: string decode reads a 4-byte-aligned `uint32` length prefix then
exactly that many raw bytes; a single trailing NUL is stripped iff the final
byte read is NUL (never more than one); the remaining bytes must be valid
UTF-8, otherwise decoding fails with `InvalidUtf8` instead of substituting
replacement characters. -/
theorem c5_string_decode :
    (∀ (c : Cursor) (len : Nat) (c1 : Cursor) (buf : List Nat) (c2 : Cursor),
      decode_u32 c = .ok (len, c1) → readExact c1 len = .ok (buf, c2) →
      decode_string c =
        match utf8Decode (stripNul buf) with
        | some cs => .ok (String.mk cs, c2)
        | none => .error .invalidUtf8) ∧
    (∀ buf : List Nat, buf.getLast? = some 0 → stripNul buf = buf.dropLast) ∧
    (∀ buf : List Nat, buf.getLast? ≠ some 0 → stripNul buf = buf) ∧
    (∀ t : List Nat, stripNul (t ++ [0, 0]) = t ++ [0]) := by
  refine ⟨?_, ?_, ?_, ?_⟩
  · intro c len c1 buf c2 h1 h2
    unfold decode_string
    rw [h1]
    simp only [Bind.bind, Except.bind]
    rw [h2]
  · intro buf h
    simp [stripNul, h]
  · intro buf h
    simp [stripNul, h]
  · intro t
    have h1 : t ++ [0, 0] = (t ++ [0]) ++ [0] := by simp
    rw [stripNul, h1, List.getLast?_concat, List.dropLast_concat]
    simp

/-- C5 witness: a concrete 3-byte string `"hi\0"` whose single NUL is
stripped, and the double-NUL buffer `[5,0,0]` keeping one NUL. -/
theorem c5_string_decode_witness :
    (decode_string ⟨[3, 0, 0, 0, 104, 105, 0], 0, .Little⟩ =
      match utf8Decode (stripNul [104, 105, 0]) with
      | some cs => .ok (String.mk cs, ⟨[3, 0, 0, 0, 104, 105, 0], 7, .Little⟩)
      | none => .error .invalidUtf8) ∧
    stripNul ([5] ++ [0, 0]) = [5] ++ [0] :=
  ⟨c5_string_decode.1 ⟨[3, 0, 0, 0, 104, 105, 0], 0, .Little⟩ 3
      ⟨[3, 0, 0, 0, 104, 105, 0], 4, .Little⟩ [104, 105, 0]
      ⟨[3, 0, 0, 0, 104, 105, 0], 7, .Little⟩ rfl rfl,
    c5_string_decode.2.2.2 [5]⟩

/-- C6: the builtin time-point and time-span types decode as exactly
`{sec: int32, nanosec: uint32}` with no recursive schema lookup (the result
is independent of the schema environment and of the nested-decode
continuation), and the concrete test bytes yield `{sec: 722, nanosec: 5000}`. -/
theorem c6_builtin_time :
    (∀ (env1 env2 : SchemaEnv)
        (recur1 recur2 : MessageSchema → Cursor → Cache → DecRes)
        (field : MessageField) (c : Cursor) (cache : Cache),
      (field.type_name = "builtin_interfaces/msg/Time" ∨
        field.type_name = "builtin_interfaces/msg/Duration") →
      decodePrimWith env1 recur1 field c cache =
        decodePrimWith env2 recur2 field c cache ∧
      decodePrimWith env1 recur1 field c cache =
        primStep cache (decodeTimeLike c)
          (fun p => .vObj [("sec", .vInt p.1), ("nanosec", .vInt p.2)])) ∧
    (∀ (env : SchemaEnv) (recur : MessageSchema → Cursor → Cache → DecRes)
        (cache : Cache),
      decodePrimWith env recur ⟨"stamp", .Object "builtin_interfaces/msg/Time"⟩
          ⟨[0xD2, 0x02, 0x00, 0x00, 0x88, 0x13, 0x00, 0x00], 0, .Little⟩ cache =
        .ok (.vObj [("sec", .vInt 722), ("nanosec", .vInt 5000)],
          ⟨[0xD2, 0x02, 0x00, 0x00, 0x88, 0x13, 0x00, 0x00], 8, .Little⟩, cache)) ∧
    (CdrDecoder.new
        [0x00, 0x01, 0x00, 0x00, 0xD2, 0x02, 0x00, 0x00, 0x88, 0x13, 0x00, 0x00] =
      some ⟨⟨[0xD2, 0x02, 0x00, 0x00, 0x88, 0x13, 0x00, 0x00], 0, .Little⟩, []⟩) := by
  have hred : ∀ (env : SchemaEnv) (recur : MessageSchema → Cursor → Cache → DecRes)
      (field : MessageField) (c : Cursor) (cache : Cache),
      (field.type_name = "builtin_interfaces/msg/Time" ∨
        field.type_name = "builtin_interfaces/msg/Duration") →
      decodePrimWith env recur field c cache =
        primStep cache (decodeTimeLike c)
          (fun p => .vObj [("sec", .vInt p.1), ("nanosec", .vInt p.2)]) := by
    intro env recur field c cache h
    rcases h with h | h
    · unfold decodePrimWith
      rw [h]
      rfl
    · unfold decodePrimWith
      rw [h]
      rfl
  refine ⟨?_, ?_, ?_⟩
  · intro env1 env2 recur1 recur2 field c cache h
    rw [hred env1 recur1 field c cache h, hred env2 recur2 field c cache h]
    exact ⟨rfl, rfl⟩
  · intro env recur cache
    rfl
  · rfl

/-- C6 witness: the environment-independence applied at a concrete `Time`
field, concrete cursor and cache. -/
theorem c6_builtin_time_witness :
    decodePrimWith (fun _ => none) (fun _ _ _ => .error .fuelExhausted)
        ⟨"stamp", .Object "builtin_interfaces/msg/Time"⟩
        ⟨[0xD2, 0x02, 0x00, 0x00, 0x88, 0x13, 0x00, 0x00], 0, .Little⟩ [] =
      decodePrimWith (fun k => some ⟨k, []⟩) (fun _ c cache => .ok (.vInt 0, c, cache))
        ⟨"stamp", .Object "builtin_interfaces/msg/Time"⟩
        ⟨[0xD2, 0x02, 0x00, 0x00, 0x88, 0x13, 0x00, 0x00], 0, .Little⟩ [] :=
  (c6_builtin_time.1 (fun _ => none) (fun k => some ⟨k, []⟩)
    (fun _ _ _ => .error .fuelExhausted) (fun _ c cache => .ok (.vInt 0, c, cache))
    ⟨"stamp", .Object "builtin_interfaces/msg/Time"⟩
    ⟨[0xD2, 0x02, 0x00, 0x00, 0x88, 0x13, 0x00, 0x00], 0, .Little⟩ []
    (Or.inl rfl)).1

/-! ## Coherence of the schema cache with the ambient resolution -/

theorem coherent_nil (env : SchemaEnv) : Coherent env [] := by
  intro k s h
  simp [cacheGet, List.find?] at h

theorem coherent_single {env : SchemaEnv} {k : String} {s : MessageSchema}
    (hk : env k = some s) : Coherent env [(k, s)] := by
  intro k' s' h'
  unfold cacheGet at h'
  by_cases he : k = k'
  · subst he
    simp [List.find?] at h'
    rw [h'] at hk
    exact hk
  · simp [List.find?, he] at h'

theorem cacheGet_append_single (cache : Cache) (k k' : String) (s : MessageSchema) :
    cacheGet (cache ++ [(k, s)]) k' =
      match cacheGet cache k' with
      | some s' => some s'
      | none => if k = k' then some s else none := by
  unfold cacheGet
  rw [List.find?_append]
  cases hc : cache.find? (fun p => p.1 = k') with
  | some q => simp [Option.or]
  | none =>
    by_cases hk : k = k'
    · simp [Option.or, List.find?, hk]
    · simp [Option.or, List.find?, hk]

theorem coherent_insert {env : SchemaEnv} {cache : Cache}
    (h : Coherent env cache) {k : String} {s : MessageSchema}
    (hk : env k = some s) : Coherent env (cache ++ [(k, s)]) := by
  intro k' s' h'
  rw [cacheGet_append_single] at h'
  cases hc : cacheGet cache k' with
  | some q =>
    rw [hc] at h'
    have h2 : q = s' := by simpa using h'
    rw [← h2]
    exact h k' q hc
  | none =>
    rw [hc] at h'
    by_cases he : k = k'
    · rw [if_pos he] at h'
      have h2 : s = s' := by simpa using h'
      rw [← h2, ← he]
      exact hk
    · rw [if_neg he] at h'
      exact Option.noConfusion h'

theorem getSchema_strip {env : SchemaEnv} {cache : Cache}
    (h : Coherent env cache) (k : String) :
    (getSchema env cache k).map (·.1) = getSchemaNC env k := by
  unfold getSchema getSchemaNC
  cases hc : cacheGet cache k with
  | some s => rw [h k s hc]; rfl
  | none =>
    cases he : env k with
    | some s => rfl
    | none => rfl

theorem getSchema_preserves {env : SchemaEnv} {cache : Cache}
    (h : Coherent env cache) (k : String) :
    ∀ s cache', getSchema env cache k = .ok (s, cache') →
      Coherent env cache' ∧ env k = some s := by
  intro s cache' hg
  unfold getSchema at hg
  cases hc : cacheGet cache k with
  | some q =>
    rw [hc] at hg
    simp only [Except.ok.injEq, Prod.mk.injEq] at hg
    obtain ⟨h1, h2⟩ := hg
    rw [← h2, ← h1]
    exact ⟨h, h k q hc⟩
  | none =>
    rw [hc] at hg
    cases he : env k with
    | some q =>
      rw [he] at hg
      simp only [Except.ok.injEq, Prod.mk.injEq] at hg
      obtain ⟨h1, h2⟩ := hg
      rw [← h2, ← h1]
      exact ⟨coherent_insert h he, rfl⟩
    | none =>
      rw [he] at hg
      exact Except.noConfusion hg

theorem primStep_strip {α : Type} (cache : Cache)
    (r : Except RosPeekError (α × Cursor)) (g : α → JValue) :
    (primStep cache r g).map (fun p => (p.1, p.2.1)) =
      r.map (fun p => (g p.1, p.2)) := by
  cases r <;> rfl

theorem primStep_ok_cache {α : Type} {cache : Cache}
    {r : Except RosPeekError (α × Cursor)} {g : α → JValue}
    {v : JValue} {c' : Cursor} {cache' : Cache}
    (h : primStep cache r g = .ok (v, c', cache')) : cache' = cache := by
  cases r with
  | error e => exact Except.noConfusion h
  | ok p =>
    unfold primStep at h
    simp only [Except.map] at h
    cases h
    rfl

theorem primOK (env : SchemaEnv)
    {recur : MessageSchema → Cursor → Cache → DecRes}
    {recurNC : MessageSchema → Cursor → DecResNC}
    (h : RecurOK env recur recurNC) (field : MessageField) :
    ElemOK env (decodePrimWith env recur field)
      (decodePrimWithNC env recurNC field) := by
  intro c cache hcoh
  refine ⟨?_, ?_⟩
  · unfold decodePrimWith decodePrimWithNC
    split
    all_goals try rw [primStep_strip]
    cases hg : getSchema env cache field.type_name with
    | error e =>
      have hst := getSchema_strip hcoh field.type_name
      rw [hg] at hst
      simp only [Except.map] at hst
      rw [← hst]
      rfl
    | ok q =>
      obtain ⟨nested, cache1⟩ := q
      have hst := getSchema_strip hcoh field.type_name
      rw [hg] at hst
      simp only [Except.map] at hst
      obtain ⟨hcoh1, _⟩ := getSchema_preserves hcoh field.type_name nested cache1 hg
      rw [← hst]
      simp only [Bind.bind, Except.bind]
      exact (h nested c cache1 hcoh1).1
  · intro v c' cache' hdec
    unfold decodePrimWith at hdec
    split at hdec
    all_goals try (rw [primStep_ok_cache hdec]; exact hcoh)
    cases hg : getSchema env cache field.type_name with
    | error e =>
      rw [hg] at hdec
      simp only [Bind.bind, Except.bind] at hdec
      exact Except.noConfusion hdec
    | ok q =>
      obtain ⟨nested, cache1⟩ := q
      rw [hg] at hdec
      simp only [Bind.bind, Except.bind] at hdec
      obtain ⟨hcoh1, _⟩ := getSchema_preserves hcoh field.type_name nested cache1 hg
      exact (h nested c cache1 hcoh1).2 v c' cache' hdec

theorem elemsOK (env : SchemaEnv) {elem : Cursor → Cache → DecRes}
    {elemNC : Cursor → DecResNC} (h : ElemOK env elem elemNC) :
    ∀ (n : Nat) (c : Cursor) (cache : Cache), Coherent env cache →
      ((decodeElems elem n c cache).map (fun p => (p.1, p.2.1)) =
        decodeElemsNC elemNC n c) ∧
      (∀ vs c' cache', decodeElems elem n c cache = .ok (vs, c', cache') →
        Coherent env cache') := by
  intro n
  induction n with
  | zero =>
    intro c cache hcoh
    refine ⟨rfl, ?_⟩
    intro vs c' cache' hd
    unfold decodeElems at hd
    cases hd
    exact hcoh
  | succ n ih =>
    intro c cache hcoh
    have hstrip := (h c cache hcoh).1
    unfold decodeElems decodeElemsNC
    cases he : elem c cache with
    | error e =>
      have hnc : elemNC c = .error e := by
        rw [he] at hstrip
        simpa [Except.map] using hstrip.symm
      rw [hnc]
      exact ⟨rfl, fun vs c' cache' hd => Except.noConfusion hd⟩
    | ok q =>
      obtain ⟨v, c1, k1⟩ := q
      have hnc : elemNC c = .ok (v, c1) := by
        rw [he] at hstrip
        simpa [Except.map] using hstrip.symm
      have hcoh1 : Coherent env k1 := (h c cache hcoh).2 v c1 k1 he
      rw [hnc]
      simp only [Bind.bind, Except.bind]
      cases hr : decodeElems elem n c1 k1 with
      | error e =>
        have hrn : decodeElemsNC elemNC n c1 = .error e := by
          have hh := (ih c1 k1 hcoh1).1
          rw [hr] at hh
          simpa [Except.map] using hh.symm
        rw [hrn]
        exact ⟨rfl, fun vs c' cache' hd => Except.noConfusion hd⟩
      | ok r =>
        obtain ⟨vs1, c2, k2⟩ := r
        have hrn : decodeElemsNC elemNC n c1 = .ok (vs1, c2) := by
          have hh := (ih c1 k1 hcoh1).1
          rw [hr] at hh
          simpa [Except.map] using hh.symm
        have hcoh2 : Coherent env k2 := (ih c1 k1 hcoh1).2 vs1 c2 k2 hr
        rw [hrn]
        refine ⟨rfl, ?_⟩
        intro vs c' cache' hd
        simp only [Except.ok.injEq, Prod.mk.injEq] at hd
        rw [← hd.2.2]
        exact hcoh2

theorem wrap_strip {α : Type} (g : α → JValue)
    {r : Except RosPeekError (α × Cursor × Cache)}
    {rn : Except RosPeekError (α × Cursor)}
    (h : r.map (fun p => (p.1, p.2.1)) = rn) :
    (r.map (fun p => (g p.1, p.2.1, p.2.2))).map (fun p => (p.1, p.2.1)) =
      rn.map (fun p => (g p.1, p.2)) := by
  subst h
  cases r <;> rfl

theorem wrap_ok {α : Type} {g : α → JValue}
    {r : Except RosPeekError (α × Cursor × Cache)} {v : JValue} {c' : Cursor}
    {k' : Cache} (h : r.map (fun p => (g p.1, p.2.1, p.2.2)) = .ok (v, c', k')) :
    ∃ x c1, r = .ok (x, c1, k') := by
  cases r with
  | error e => exact Except.noConfusion h
  | ok p =>
    simp only [Except.map, Except.ok.injEq, Prod.mk.injEq] at h
    exact ⟨p.1, p.2.1, by rw [← h.2.2]⟩

theorem iterOK (env : SchemaEnv)
    {recur : MessageSchema → Cursor → Cache → DecRes}
    {recurNC : MessageSchema → Cursor → DecResNC}
    (h : RecurOK env recur recurNC) (field : MessageField) :
    ElemOK env (decodeIterWith env recur field)
      (decodeIterWithNC env recurNC field) := by
  have hel := primOK env h field
  intro c cache hcoh
  obtain ⟨nm, ft⟩ := field
  cases ft with
  | Array t n =>
    simp only [decodeIterWith, decodeIterWithNC]
    have he := elemsOK env hel n c cache hcoh
    refine ⟨wrap_strip JValue.vArr he.1, ?_⟩
    intro v c' k' hd
    obtain ⟨x, c1, hr⟩ := wrap_ok hd
    exact he.2 x c1 k' hr
  | Sequence t =>
    simp only [decodeIterWith, decodeIterWithNC]
    cases hu : decode_u32 c with
    | error e =>
      simp only [Bind.bind, Except.bind]
      exact ⟨rfl, fun v c' k' hd => Except.noConfusion hd⟩
    | ok p =>
      obtain ⟨len, c1⟩ := p
      simp only [Bind.bind, Except.bind]
      have he := elemsOK env hel len c1 cache hcoh
      refine ⟨wrap_strip JValue.vArr he.1, ?_⟩
      intro v c' k' hd
      obtain ⟨x, c2, hr⟩ := wrap_ok hd
      exact he.2 x c2 k' hr
  | Object t =>
    simp only [decodeIterWith, decodeIterWithNC]
    have he := elemsOK env hel 0 c cache hcoh
    refine ⟨wrap_strip JValue.vArr he.1, ?_⟩
    intro v c' k' hd
    obtain ⟨x, c1, hr⟩ := wrap_ok hd
    exact he.2 x c1 k' hr

theorem fieldsOK (env : SchemaEnv)
    {recur : MessageSchema → Cursor → Cache → DecRes}
    {recurNC : MessageSchema → Cursor → DecResNC}
    (h : RecurOK env recur recurNC) :
    ∀ (fs : List MessageField) (c : Cursor) (cache : Cache)
      (acc : List (String × JValue)), Coherent env cache →
      ((decodeFieldsWith env recur fs c cache acc).map (fun p => (p.1, p.2.1)) =
        decodeFieldsWithNC env recurNC fs c acc) ∧
      (∀ out c' cache',
        decodeFieldsWith env recur fs c cache acc = .ok (out, c', cache') →
        Coherent env cache') := by
  intro fs
  induction fs with
  | nil =>
    intro c cache acc hcoh
    refine ⟨rfl, ?_⟩
    intro out c' k' hd
    cases hd
    exact hcoh
  | cons f fs ih =>
    intro c cache acc hcoh
    unfold decodeFieldsWith decodeFieldsWithNC
    by_cases hit : f.is_iterable = true
    · rw [if_pos hit, if_pos hit]
      have helem := iterOK env h f
      have hstrip := (helem c cache hcoh).1
      cases he : decodeIterWith env recur f c cache with
      | error e =>
        have hnc : decodeIterWithNC env recurNC f c = .error e := by
          rw [he] at hstrip
          simpa [Except.map] using hstrip.symm
        rw [hnc]
        simp only [Bind.bind, Except.bind]
        exact ⟨rfl, fun out c' k' hd => Except.noConfusion hd⟩
      | ok q =>
        obtain ⟨v, c1, k1⟩ := q
        have hnc : decodeIterWithNC env recurNC f c = .ok (v, c1) := by
          rw [he] at hstrip
          simpa [Except.map] using hstrip.symm
        have hcoh1 : Coherent env k1 := (helem c cache hcoh).2 v c1 k1 he
        rw [hnc]
        simp only [Bind.bind, Except.bind]
        exact ih c1 k1 (insertKV acc f.name v) hcoh1
    · rw [if_neg hit, if_neg hit]
      have helem := primOK env h f
      have hstrip := (helem c cache hcoh).1
      cases he : decodePrimWith env recur f c cache with
      | error e =>
        have hnc : decodePrimWithNC env recurNC f c = .error e := by
          rw [he] at hstrip
          simpa [Except.map] using hstrip.symm
        rw [hnc]
        simp only [Bind.bind, Except.bind]
        exact ⟨rfl, fun out c' k' hd => Except.noConfusion hd⟩
      | ok q =>
        obtain ⟨v, c1, k1⟩ := q
        have hnc : decodePrimWithNC env recurNC f c = .ok (v, c1) := by
          rw [he] at hstrip
          simpa [Except.map] using hstrip.symm
        have hcoh1 : Coherent env k1 := (helem c cache hcoh).2 v c1 k1 he
        rw [hnc]
        simp only [Bind.bind, Except.bind]
        exact ih c1 k1 (insertKV acc f.name v) hcoh1

theorem stepOK (env : SchemaEnv)
    {recur : MessageSchema → Cursor → Cache → DecRes}
    {recurNC : MessageSchema → Cursor → DecResNC}
    (h : RecurOK env recur recurNC) :
    RecurOK env (decodeStep env recur) (decodeStepNC env recurNC) := by
  intro schema c cache hcoh
  have hf := fieldsOK env h schema.fields c cache [] hcoh
  refine ⟨wrap_strip JValue.vObj hf.1, ?_⟩
  intro v c' k' hd
  obtain ⟨x, c1, hr⟩ := wrap_ok hd
  exact hf.2 x c1 k' hr

theorem schemaOK (env : SchemaEnv) :
    ∀ fuel, RecurOK env (decodeSchema env fuel) (decodeSchemaNC env fuel) := by
  intro fuel
  induction fuel with
  | zero =>
    intro schema c cache hcoh
    exact ⟨rfl, fun v c' k' hd => Except.noConfusion hd⟩
  | succ fuel ih => exact stepOK env ih

theorem decodeMsg_eq (env : SchemaEnv) (fuel : Nat) (schema : MessageSchema)
    (p : List Nat) (cache : Cache) (hlen : 4 ≤ p.length) :
    decodeMsg env fuel schema p cache =
      (decodeSchema env fuel schema ⟨p.drop 4, 0, to_endianness p⟩ cache).map
        (fun q => (q.1, q.2.2)) := by
  unfold decodeMsg CdrDecoder.reset
  rw [if_pos hlen]

theorem decodeMsg_eq_panicked (env : SchemaEnv) (fuel : Nat)
    (schema : MessageSchema) (p : List Nat) (cache : Cache)
    (hlen : ¬4 ≤ p.length) :
    decodeMsg env fuel schema p cache = .error .panicked := by
  unfold decodeMsg CdrDecoder.reset
  rw [if_neg hlen]

theorem decodeMsgNC_eq (env : SchemaEnv) (fuel : Nat) (schema : MessageSchema)
    (p : List Nat) (hlen : 4 ≤ p.length) :
    decodeMsgNC env fuel schema p =
      (decodeSchemaNC env fuel schema ⟨p.drop 4, 0, to_endianness p⟩).map (·.1) := by
  unfold decodeMsgNC
  rw [if_pos hlen]

theorem decodeMsg_coh (env : SchemaEnv) (fuel : Nat) (schema : MessageSchema)
    {cache : Cache} (hcoh : Coherent env cache) (p : List Nat) :
    ((decodeMsg env fuel schema p cache).map (·.1) =
      decodeMsgNC env fuel schema p) ∧
    (∀ v cache', decodeMsg env fuel schema p cache = .ok (v, cache') →
      Coherent env cache') := by
  by_cases hlen : 4 ≤ p.length
  · rw [decodeMsg_eq env fuel schema p cache hlen, decodeMsgNC_eq env fuel schema p hlen]
    have hs := schemaOK env fuel schema ⟨p.drop 4, 0, to_endianness p⟩ cache hcoh
    have hstrip := hs.1
    cases hd : decodeSchema env fuel schema ⟨p.drop 4, 0, to_endianness p⟩ cache with
    | error e =>
      have hnc : decodeSchemaNC env fuel schema ⟨p.drop 4, 0, to_endianness p⟩ =
          .error e := by
        rw [hd] at hstrip
        simpa [Except.map] using hstrip.symm
      rw [hnc]
      exact ⟨rfl, fun v cache' h2 => Except.noConfusion h2⟩
    | ok q =>
      obtain ⟨v0, c0, k0⟩ := q
      have hnc : decodeSchemaNC env fuel schema ⟨p.drop 4, 0, to_endianness p⟩ =
          .ok (v0, c0) := by
        rw [hd] at hstrip
        simpa [Except.map] using hstrip.symm
      rw [hnc]
      refine ⟨rfl, ?_⟩
      intro v cache' h2
      simp only [Except.map, Except.ok.injEq, Prod.mk.injEq] at h2
      rw [← h2.2]
      exact hs.2 v0 c0 k0 hd
  · rw [decodeMsg_eq_panicked env fuel schema p cache hlen]
    unfold decodeMsgNC
    rw [if_neg hlen]
    exact ⟨rfl, fun v cache' h2 => Except.noConfusion h2⟩

theorem decodeSegment_coh (env : SchemaEnv) (fuel : Nat) (schema : MessageSchema) :
    ∀ (ps : List (List Nat)) (cache : Cache), Coherent env cache →
      ((decodeSegment env fuel schema ps cache).map (·.1) =
        decodeSegmentNC env fuel schema ps) ∧
      (∀ vs cache', decodeSegment env fuel schema ps cache = .ok (vs, cache') →
        Coherent env cache') := by
  intro ps
  induction ps with
  | nil =>
    intro cache hcoh
    refine ⟨rfl, ?_⟩
    intro vs cache' hd
    cases hd
    exact hcoh
  | cons p ps ih =>
    intro cache hcoh
    have hm := decodeMsg_coh env fuel schema hcoh p
    unfold decodeSegment decodeSegmentNC
    cases he : decodeMsg env fuel schema p cache with
    | error e =>
      have hnc : decodeMsgNC env fuel schema p = .error e := by
        have h1 := hm.1
        rw [he] at h1
        simpa [Except.map] using h1.symm
      rw [hnc]
      exact ⟨rfl, fun vs cache' hd => Except.noConfusion hd⟩
    | ok q =>
      obtain ⟨v, k1⟩ := q
      have hnc : decodeMsgNC env fuel schema p = .ok v := by
        have h1 := hm.1
        rw [he] at h1
        simpa [Except.map] using h1.symm
      have hcoh1 : Coherent env k1 := hm.2 v k1 he
      rw [hnc]
      simp only [Bind.bind, Except.bind]
      cases hr : decodeSegment env fuel schema ps k1 with
      | error e =>
        have hrn : decodeSegmentNC env fuel schema ps = .error e := by
          have h1 := (ih k1 hcoh1).1
          rw [hr] at h1
          simpa [Except.map] using h1.symm
        rw [hrn]
        exact ⟨rfl, fun vs cache' hd => Except.noConfusion hd⟩
      | ok r =>
        obtain ⟨vs1, k2⟩ := r
        have hrn : decodeSegmentNC env fuel schema ps = .ok vs1 := by
          have h1 := (ih k1 hcoh1).1
          rw [hr] at h1
          simpa [Except.map] using h1.symm
        have hcoh2 : Coherent env k2 := (ih k1 hcoh1).2 vs1 k2 hr
        rw [hrn]
        refine ⟨rfl, ?_⟩
        intro vs cache' hd
        simp only [Except.ok.injEq, Prod.mk.injEq] at hd
        rw [← hd.2]
        exact hcoh2

theorem decodeSegmentNC_append (env : SchemaEnv) (fuel : Nat)
    (schema : MessageSchema) :
    ∀ (a b : List (List Nat)),
      decodeSegmentNC env fuel schema (a ++ b) =
        (do
          let va ← decodeSegmentNC env fuel schema a
          let vb ← decodeSegmentNC env fuel schema b
          Except.ok (va ++ vb)) := by
  intro a
  induction a with
  | nil =>
    intro b
    simp only [List.nil_append, decodeSegmentNC, Bind.bind, Except.bind]
    cases decodeSegmentNC env fuel schema b <;> rfl
  | cons p a ih =>
    intro b
    show (do
        let v ← decodeMsgNC env fuel schema p
        let vs ← decodeSegmentNC env fuel schema (a ++ b)
        Except.ok (v :: vs)) =
      (do
        let va ← (do
          let v ← decodeMsgNC env fuel schema p
          let vs ← decodeSegmentNC env fuel schema a
          Except.ok (v :: vs) : Except RosPeekError (List JValue))
        let vb ← decodeSegmentNC env fuel schema b
        Except.ok (va ++ vb))
    rw [ih b]
    cases hm : decodeMsgNC env fuel schema p with
    | error e => simp only [Bind.bind, Except.bind]
    | ok v =>
      simp only [Bind.bind, Except.bind]
      cases ha : decodeSegmentNC env fuel schema a with
      | error e => simp only [Bind.bind, Except.bind]
      | ok va =>
        simp only [Bind.bind, Except.bind]
        cases hb : decodeSegmentNC env fuel schema b with
        | error e => rfl
        | ok vb => simp [List.cons_append]

theorem decodeSegmentNC_ok (env : SchemaEnv) (fuel : Nat)
    (schema : MessageSchema) :
    ∀ (ps : List (List Nat)) (vs : List JValue),
      decodeSegmentNC env fuel schema ps = .ok vs →
      vs.length = ps.length ∧
      ∀ i (hi : i < ps.length) (hv : i < vs.length),
        decodeMsgNC env fuel schema (ps.get ⟨i, hi⟩) = .ok (vs.get ⟨i, hv⟩) := by
  intro ps
  induction ps with
  | nil =>
    intro vs h
    cases h
    exact ⟨rfl, fun i hi _ => absurd hi (Nat.not_lt_zero i)⟩
  | cons p ps ih =>
    intro vs h
    unfold decodeSegmentNC at h
    cases hm : decodeMsgNC env fuel schema p with
    | error e =>
      rw [hm] at h
      simp only [Bind.bind, Except.bind] at h
      exact Except.noConfusion h
    | ok v =>
      rw [hm] at h
      simp only [Bind.bind, Except.bind] at h
      cases hr : decodeSegmentNC env fuel schema ps with
      | error e =>
        rw [hr] at h
        exact Except.noConfusion h
      | ok vs1 =>
        rw [hr] at h
        simp only [Except.ok.injEq] at h
        subst h
        obtain ⟨hlen, helems⟩ := ih vs1 hr
        refine ⟨by simp [hlen], ?_⟩
        intro i hi hv
        cases i with
        | zero => exact hm
        | succ j =>
          exact helems j (Nat.lt_of_succ_lt_succ (by simpa using hi))
            (Nat.lt_of_succ_lt_succ (by simpa using hv))

theorem decodeSegmentNC_error (env : SchemaEnv) (fuel : Nat)
    (schema : MessageSchema) :
    ∀ (ps : List (List Nat)),
      (∃ p ∈ ps, ∃ e, decodeMsgNC env fuel schema p = .error e) →
      ∀ vs, decodeSegmentNC env fuel schema ps ≠ .ok vs := by
  intro ps
  induction ps with
  | nil =>
    intro h vs _
    obtain ⟨p, hp, _⟩ := h
    exact absurd hp (List.not_mem_nil p)
  | cons q ps ih =>
    intro h vs hok
    unfold decodeSegmentNC at hok
    obtain ⟨p, hp, e, hpe⟩ := h
    cases hm : decodeMsgNC env fuel schema q with
    | error e2 =>
      rw [hm] at hok
      simp only [Bind.bind, Except.bind] at hok
      exact Except.noConfusion hok
    | ok v =>
      rw [hm] at hok
      simp only [Bind.bind, Except.bind] at hok
      cases hr : decodeSegmentNC env fuel schema ps with
      | error e2 =>
        rw [hr] at hok
        exact Except.noConfusion hok
      | ok vs1 =>
        rcases List.mem_cons.mp hp with rfl | hp2
        · rw [hm] at hpe
          exact Except.noConfusion hpe
        · exact ih ⟨p, hp2, e, hpe⟩ vs1 hr

theorem parCollect_eq (env : SchemaEnv) (fuel : Nat) (schema : MessageSchema)
    (hself : env schema.type_name = some schema) :
    ∀ segments, parCollect env fuel schema segments =
      decodeSegmentNC env fuel schema segments.join := by
  intro segments
  induction segments with
  | nil => rfl
  | cons seg rest ih =>
    have hcoh : Coherent env (CdrDecoder.from_schema schema).cache :=
      coherent_single hself
    have hs := decodeSegment_coh env fuel schema seg
      (CdrDecoder.from_schema schema).cache hcoh
    show (do
        let q ← decodeSegment env fuel schema seg (CdrDecoder.from_schema schema).cache
        let vss ← parCollect env fuel schema rest
        Except.ok (q.1 ++ vss)) =
      decodeSegmentNC env fuel schema (seg ++ rest.join)
    rw [decodeSegmentNC_append, ← ih]
    cases hd : decodeSegment env fuel schema seg (CdrDecoder.from_schema schema).cache with
    | error e =>
      have hnc : decodeSegmentNC env fuel schema seg = .error e := by
        have h1 := hs.1
        rw [hd] at h1
        simpa [Except.map] using h1.symm
      rw [hnc]
      rfl
    | ok q =>
      obtain ⟨vs, k⟩ := q
      have hnc : decodeSegmentNC env fuel schema seg = .ok vs := by
        have h1 := hs.1
        rw [hd] at h1
        simpa [Except.map] using h1.symm
      rw [hnc]
      simp only [Bind.bind, Except.bind]

theorem try_decode_json_eq (env : SchemaEnv) (fuel : Nat) (reader : BagData)
    (topic : String) (segments : List (List (List Nat))) {info : Topic}
    {schema : MessageSchema}
    (hf : reader.topics.find? (fun t => t.name = topic) = some info)
    (he : env info.type_name = some schema) :
    try_decode_json env fuel reader topic segments =
      parCollect env fuel schema segments := by
  unfold try_decode_json
  rw [hf]
  show (match env info.type_name with
    | none => Except.error (RosPeekError.idlNotFound info.type_name)
    | some schema => parCollect env fuel schema segments) =
    parCollect env fuel schema segments
  rw [he]

theorem try_decode_json_seq_eq (env : SchemaEnv) (fuel : Nat) (reader : BagData)
    (topic : String) {info : Topic} {schema : MessageSchema}
    (hf : reader.topics.find? (fun t => t.name = topic) = some info)
    (he : env info.type_name = some schema) :
    try_decode_json_seq env fuel reader topic =
      (decodeSegment env fuel schema (reader.read_messages topic)
        (CdrDecoder.from_schema schema).cache).map (·.1) := by
  unfold try_decode_json_seq
  rw [hf]
  show (match env info.type_name with
    | none => Except.error (RosPeekError.idlNotFound info.type_name)
    | some schema =>
      (decodeSegment env fuel schema (reader.read_messages topic)
        (CdrDecoder.from_schema schema).cache).map
          (fun q : List JValue × Cache => q.1)) =
    (decodeSegment env fuel schema (reader.read_messages topic)
      (CdrDecoder.from_schema schema).cache).map (·.1)
  rw [he]

theorem try_decode_json_no_topic (env : SchemaEnv) (fuel : Nat)
    (reader : BagData) (topic : String) (segments : List (List (List Nat)))
    (hf : reader.topics.find? (fun t => t.name = topic) = none) :
    try_decode_json env fuel reader topic segments =
      .error (.topicNotFound topic) := by
  unfold try_decode_json
  rw [hf]

theorem try_decode_json_seq_no_topic (env : SchemaEnv) (fuel : Nat)
    (reader : BagData) (topic : String)
    (hf : reader.topics.find? (fun t => t.name = topic) = none) :
    try_decode_json_seq env fuel reader topic =
      .error (.topicNotFound topic) := by
  unfold try_decode_json_seq
  rw [hf]

theorem try_decode_json_no_schema (env : SchemaEnv) (fuel : Nat)
    (reader : BagData) (topic : String) (segments : List (List (List Nat)))
    {info : Topic}
    (hf : reader.topics.find? (fun t => t.name = topic) = some info)
    (he : env info.type_name = none) :
    try_decode_json env fuel reader topic segments =
      .error (.idlNotFound info.type_name) := by
  unfold try_decode_json
  rw [hf]
  show (match env info.type_name with
    | none => Except.error (RosPeekError.idlNotFound info.type_name)
    | some schema => parCollect env fuel schema segments) = _
  rw [he]

theorem try_decode_json_seq_no_schema (env : SchemaEnv) (fuel : Nat)
    (reader : BagData) (topic : String) {info : Topic}
    (hf : reader.topics.find? (fun t => t.name = topic) = some info)
    (he : env info.type_name = none) :
    try_decode_json_seq env fuel reader topic =
      .error (.idlNotFound info.type_name) := by
  unfold try_decode_json_seq
  rw [hf]
  show (match env info.type_name with
    | none => Except.error (RosPeekError.idlNotFound info.type_name)
    | some schema =>
      (decodeSegment env fuel schema (reader.read_messages topic)
        (CdrDecoder.from_schema schema).cache).map
          (fun q : List JValue × Cache => q.1)) =
    .error (.idlNotFound info.type_name)
  rw [he]

/-- C1: the parallel `try_decode_json` — executed over any rayon segmentation
of the payload list, each worker starting from `CdrDecoder::from_schema` —
computes exactly the sequential one-worker decode in input order; when it
succeeds it returns one document per payload with element `i` the decode of
payload `i`, and when any payload fails to decode the whole operation returns
an error, never a partial list.  The hypothesis `hwf` states the
`MessageSchema::try_from` postcondition that a resolved schema carries the
type name it was resolved for. -/
theorem c1_par_decode_refines_seq (env : SchemaEnv) (fuel : Nat)
    (reader : BagData) (topic : String) (segments : List (List (List Nat)))
    (hwf : ∀ t s, env t = some s → s.type_name = t)
    (hjoin : segments.join = reader.read_messages topic) :
    (try_decode_json env fuel reader topic segments =
      try_decode_json_seq env fuel reader topic) ∧
    (∀ info schema vs,
      reader.topics.find? (fun t => t.name = topic) = some info →
      env info.type_name = some schema →
      try_decode_json env fuel reader topic segments = .ok vs →
      vs.length = (reader.read_messages topic).length ∧
      ∀ i (hi : i < (reader.read_messages topic).length) (hv : i < vs.length),
        decodeMsgNC env fuel schema ((reader.read_messages topic).get ⟨i, hi⟩) =
          .ok (vs.get ⟨i, hv⟩)) ∧
    (∀ info schema,
      reader.topics.find? (fun t => t.name = topic) = some info →
      env info.type_name = some schema →
      (∃ p ∈ reader.read_messages topic, ∃ e,
        decodeMsgNC env fuel schema p = .error e) →
      ∀ vs, try_decode_json env fuel reader topic segments ≠ .ok vs) := by
  cases hf : reader.topics.find? (fun t => t.name = topic) with
  | none =>
    refine ⟨?_, ?_, ?_⟩
    · rw [try_decode_json_no_topic env fuel reader topic segments hf,
        try_decode_json_seq_no_topic env fuel reader topic hf]
    · intro info schema vs hfi
      exact Option.noConfusion hfi
    · intro info schema hfi
      exact Option.noConfusion hfi
  | some info =>
    cases he : env info.type_name with
    | none =>
      refine ⟨?_, ?_, ?_⟩
      · rw [try_decode_json_no_schema env fuel reader topic segments hf he,
          try_decode_json_seq_no_schema env fuel reader topic hf he]
      · intro info' schema' vs hfi hei
        injection hfi with hfi
        subst hfi
        rw [he] at hei
        exact Option.noConfusion hei
      · intro info' schema' hfi hei
        injection hfi with hfi
        subst hfi
        rw [he] at hei
        exact Option.noConfusion hei
    | some schema =>
      have hself : env schema.type_name = some schema := by
        rw [hwf info.type_name schema he]
        exact he
      have hpar : try_decode_json env fuel reader topic segments =
          decodeSegmentNC env fuel schema (reader.read_messages topic) := by
        rw [try_decode_json_eq env fuel reader topic segments hf he,
          parCollect_eq env fuel schema hself segments, hjoin]
      have hseq := (decodeSegment_coh env fuel schema
        (reader.read_messages topic) (CdrDecoder.from_schema schema).cache
        (coherent_single hself)).1
      refine ⟨?_, ?_, ?_⟩
      · rw [hpar, try_decode_json_seq_eq env fuel reader topic hf he, hseq]
      · intro info' schema' vs hfi hei hok
        injection hfi with hfi
        subst hfi
        rw [he] at hei
        injection hei with hei
        subst hei
        rw [hpar] at hok
        exact decodeSegmentNC_ok env fuel schema _ vs hok
      · intro info' schema' hfi hei hfail vs hok
        injection hfi with hfi
        subst hfi
        rw [he] at hei
        injection hei with hei
        subst hei
        rw [hpar] at hok
        exact decodeSegmentNC_error env fuel schema _ hfail vs hok

/-- C1 witness: with two payloads split across two workers, the parallel
decode equals the sequential one. -/
theorem c1_par_decode_refines_seq_witness :
    try_decode_json c1Env 5 c1Reader "t" [[[0, 1, 0, 0, 7]], [[0, 1, 0, 0, 9]]] =
      try_decode_json_seq c1Env 5 c1Reader "t" :=
  (c1_par_decode_refines_seq c1Env 5 c1Reader "t"
    [[[0, 1, 0, 0, 7]], [[0, 1, 0, 0, 9]]]
    (by
      intro t s h
      unfold c1Env at h
      by_cases ht : t = "std_msgs/msg/X"
      · subst ht
        rw [if_pos rfl] at h
        injection h with h
        rw [← h]
      · rw [if_neg ht] at h
        exact Option.noConfusion h)
    (by rfl)).1

/-! ## BTreeSet model lemmas and the CSV fold -/

theorem charsLt_trans :
    ∀ (as bs cs : List Char), charsLt as bs = true → charsLt bs cs = true →
      charsLt as cs = true := by
  intro as
  induction as with
  | nil =>
    intro bs cs h1 h2
    cases bs with
    | nil => simp [charsLt] at h1
    | cons b bs =>
      cases cs with
      | nil => simp [charsLt] at h2
      | cons c cs => simp [charsLt]
  | cons a as ih =>
    intro bs cs h1 h2
    cases bs with
    | nil => simp [charsLt] at h1
    | cons b bs =>
      cases cs with
      | nil => simp [charsLt] at h2
      | cons c cs =>
        unfold charsLt at h1 h2 ⊢
        by_cases hab : a.toNat < b.toNat
        · by_cases hbc : b.toNat < c.toNat
          · have hac : a.toNat < c.toNat := Nat.lt_trans hab hbc
            simp [hac]
          · by_cases hcb : c.toNat < b.toNat
            · simp [hbc, hcb] at h2
            · have hac : a.toNat < c.toNat := by omega
              simp [hac]
        · by_cases hba : b.toNat < a.toNat
          · simp [hab, hba] at h1
          · by_cases hbc : b.toNat < c.toNat
            · have hac : a.toNat < c.toNat := by omega
              simp [hac]
            · by_cases hcb : c.toNat < b.toNat
              · simp [hbc, hcb] at h2
              · have hac1 : ¬a.toNat < c.toNat := by omega
                have hac2 : ¬c.toNat < a.toNat := by omega
                simp only [hab, hba, if_false] at h1
                simp only [hbc, hcb, if_false] at h2
                simp only [hac1, hac2, if_false]
                exact ih bs cs h1 h2

theorem strLt_trans {a b c : String} (h1 : strLt a b = true)
    (h2 : strLt b c = true) : strLt a c = true :=
  charsLt_trans a.data b.data c.data h1 h2

theorem charsLt_trichotomy :
    ∀ (as bs : List Char), charsLt as bs = true ∨ as = bs ∨ charsLt bs as = true := by
  intro as
  induction as with
  | nil =>
    intro bs
    cases bs with
    | nil => exact Or.inr (Or.inl rfl)
    | cons b bs => exact Or.inl (by simp [charsLt])
  | cons a as ih =>
    intro bs
    cases bs with
    | nil => exact Or.inr (Or.inr (by simp [charsLt]))
    | cons b bs =>
      rcases Nat.lt_trichotomy a.toNat b.toNat with h | h | h
      · exact Or.inl (by simp [charsLt, h])
      · have hab : a = b := Char.ext (UInt32.ext_iff.mpr h)
        subst hab
        rcases ih bs with h2 | h2 | h2
        · exact Or.inl (by simp [charsLt, h2])
        · exact Or.inr (Or.inl (by rw [h2]))
        · exact Or.inr (Or.inr (by simp [charsLt, h2]))
      · exact Or.inr (Or.inr (by simp [charsLt, h, Nat.lt_asymm h]))

theorem strLt_trichotomy (a b : String) :
    strLt a b = true ∨ a = b ∨ strLt b a = true := by
  rcases charsLt_trichotomy a.data b.data with h | h | h
  · exact Or.inl h
  · refine Or.inr (Or.inl ?_)
    cases a
    cases b
    exact congrArg String.mk h
  · exact Or.inr (Or.inr h)

theorem btreeInsert_mem (s : List String) (x y : String) :
    y ∈ btreeInsert s x ↔ y = x ∨ y ∈ s := by
  induction s with
  | nil => simp [btreeInsert]
  | cons z zs ih =>
    unfold btreeInsert
    by_cases h1 : strLt x z = true
    · rw [if_pos h1]
      simp [List.mem_cons]
    · rw [if_neg h1]
      by_cases h2 : x = z
      · rw [if_pos h2]
        subst h2
        simp [List.mem_cons]
      · rw [if_neg h2]
        simp only [List.mem_cons, ih]
        tauto

theorem btreeInsert_sorted {s : List String}
    (hs : List.Sorted (fun a b => strLt a b = true) s) (x : String) :
    List.Sorted (fun a b => strLt a b = true) (btreeInsert s x) := by
  induction s with
  | nil => simp [btreeInsert]
  | cons z zs ih =>
    rw [List.sorted_cons] at hs
    obtain ⟨hz, hzs⟩ := hs
    unfold btreeInsert
    by_cases h1 : strLt x z = true
    · rw [if_pos h1, List.sorted_cons]
      constructor
      · intro b hb
        rcases List.mem_cons.mp hb with rfl | hb2
        · exact h1
        · exact strLt_trans h1 (hz b hb2)
      · rw [List.sorted_cons]
        exact ⟨hz, hzs⟩
    · rw [if_neg h1]
      by_cases h2 : x = z
      · rw [if_pos h2, List.sorted_cons]
        exact ⟨hz, hzs⟩
      · rw [if_neg h2]
        have h3 : strLt z x = true := by
          rcases strLt_trichotomy x z with h | h | h
          · exact absurd h h1
          · exact absurd h h2
          · exact h
        rw [List.sorted_cons]
        constructor
        · intro b hb
          rcases (btreeInsert_mem zs x b).mp hb with rfl | hb2
          · exact h3
          · exact hz b hb2
        · exact ih hzs

theorem btreeExtend_mem (xs : List String) :
    ∀ (s : List String) (y : String),
      y ∈ btreeExtend s xs ↔ y ∈ s ∨ y ∈ xs := by
  induction xs with
  | nil => simp [btreeExtend]
  | cons x xs ih =>
    intro s y
    show y ∈ btreeExtend (btreeInsert s x) xs ↔ _
    rw [ih (btreeInsert s x) y, btreeInsert_mem]
    simp only [List.mem_cons]
    tauto

theorem btreeExtend_sorted (xs : List String) :
    ∀ {s : List String}, List.Sorted (fun a b => strLt a b = true) s →
      List.Sorted (fun a b => strLt a b = true) (btreeExtend s xs) := by
  induction xs with
  | nil => intro s hs; exact hs
  | cons x xs ih =>
    intro s hs
    show List.Sorted (fun a b => strLt a b = true) (btreeExtend (btreeInsert s x) xs)
    exact ih (btreeInsert_sorted hs x)

theorem csvColsFrom_mem (docs : List (List (String × JValue))) :
    ∀ (cols : List String) (y : String),
      y ∈ csvColsFrom cols docs ↔
        y ∈ cols ∨ ∃ d ∈ docs, y ∈ (flatten_json d).map (·.1) := by
  induction docs with
  | nil => simp [csvColsFrom]
  | cons d ds ih =>
    intro cols y
    show y ∈ csvColsFrom (btreeExtend cols ((flatten_json d).map (·.1))) ds ↔ _
    rw [ih, btreeExtend_mem]
    simp only [List.mem_cons]
    constructor
    · rintro ((h | h) | ⟨d2, hd2, h⟩)
      · exact Or.inl h
      · exact Or.inr ⟨d, Or.inl rfl, h⟩
      · exact Or.inr ⟨d2, Or.inr hd2, h⟩
    · rintro (h | ⟨d2, (rfl | hd2), h⟩)
      · exact Or.inl (Or.inl h)
      · exact Or.inl (Or.inr h)
      · exact Or.inr ⟨d2, hd2, h⟩

theorem csvColsFrom_sorted (docs : List (List (String × JValue))) :
    ∀ {cols : List String}, List.Sorted (fun a b => strLt a b = true) cols →
      List.Sorted (fun a b => strLt a b = true) (csvColsFrom cols docs) := by
  induction docs with
  | nil => intro cols hs; exact hs
  | cons d ds ih =>
    intro cols hs
    show List.Sorted (fun a b => strLt a b = true)
      (csvColsFrom (btreeExtend cols ((flatten_json d).map (·.1))) ds)
    exact ih (btreeExtend_sorted _ hs)

theorem csv_rows_spec (docs : List (List (String × JValue))) :
    ∀ (cols : List String) (rows : List (List String)),
      try_decode_csv_rows (docs.map .vObj) cols rows =
        (csvColsFrom cols docs, rows ++ csvRowsFrom cols docs) := by
  induction docs with
  | nil =>
    intro cols rows
    simp [try_decode_csv_rows, csvColsFrom, csvRowsFrom]
  | cons d ds ih =>
    intro cols rows
    have h1 : try_decode_csv_rows ((d :: ds).map .vObj) cols rows =
        try_decode_csv_rows (ds.map .vObj)
          (btreeExtend cols ((flatten_json d).map (·.1)))
          (rows ++ [(btreeExtend cols ((flatten_json d).map (·.1))).map
            (fun col => ((lookupKV (flatten_json d) col).map jsonToString).getD "")]) :=
      rfl
    rw [h1, ih]
    rw [List.append_assoc]
    rfl

/-- C7 counterexample: with the length-2 sequence in the FIRST document and
the length-3 sequence in the second, the column set is the union
`a.0, a.1, a.2` but the first row has only 2 cells — it has no empty cell
under `a.2`, contrary to the claim. -/
theorem c7_flatten_counterexample :
    try_decode_csv_from
        [.vObj [("a", .vArr [.vInt 1, .vInt 2])],
          .vObj [("a", .vArr [.vInt 1, .vInt 2, .vInt 3])]] =
      (["a.0", "a.1", "a.2"], [["1", "2"], ["1", "2", "3"]]) ∧
    ¬(∀ row ∈ (try_decode_csv_from
        [.vObj [("a", .vArr [.vInt 1, .vInt 2])],
          .vObj [("a", .vArr [.vInt 1, .vInt 2, .vInt 3])]]).2,
      row.length =
        (try_decode_csv_from
          [.vObj [("a", .vArr [.vInt 1, .vInt 2])],
            .vObj [("a", .vArr [.vInt 1, .vInt 2, .vInt 3])]]).1.length) := by
  have hres : try_decode_csv_from
      [.vObj [("a", .vArr [.vInt 1, .vInt 2])],
        .vObj [("a", .vArr [.vInt 1, .vInt 2, .vInt 3])]] =
      (["a.0", "a.1", "a.2"], [["1", "2"], ["1", "2", "3"]]) := by rfl
  refine ⟨hres, ?_⟩
  intro h
  have h2 := h ["1", "2"] (by rw [hres]; exact List.mem_cons_self _ _)
  rw [hres] at h2
  simp at h2

/-- C7 (amended): the column set is the union of flattened keys across all
documents, kept in sorted order; each document contributes one row built over
the columns accumulated up to and including itself, where a column the
document lacks yields an empty cell (never an error) — but columns first
introduced by LATER documents are absent from earlier rows (those rows are
shorter), they are not padded with empty cells. -/
theorem c7_flatten_amended :
    (∀ docs : List (List (String × JValue)),
      List.Sorted (fun a b => strLt a b = true)
        (try_decode_csv_from (docs.map .vObj)).1 ∧
      ∀ col, col ∈ (try_decode_csv_from (docs.map .vObj)).1 ↔
        ∃ d ∈ docs, col ∈ (flatten_json d).map (·.1)) ∧
    (∀ docs : List (List (String × JValue)),
      (try_decode_csv_from (docs.map .vObj)).2 = csvRowsFrom [] docs) ∧
    (∀ (cols : List String) (d : List (String × JValue)) ds,
      csvRowsFrom cols (d :: ds) =
        ((btreeExtend cols ((flatten_json d).map (·.1))).map (fun col =>
          ((lookupKV (flatten_json d) col).map jsonToString).getD "")) ::
          csvRowsFrom (btreeExtend cols ((flatten_json d).map (·.1))) ds) ∧
    (∀ (result : List (String × JValue)) (col : String),
      lookupKV result col = none →
      ((lookupKV result col).map jsonToString).getD "" = "") := by
  refine ⟨?_, ?_, ?_, ?_⟩
  · intro docs
    have hspec := csv_rows_spec docs [] []
    constructor
    · show List.Sorted (fun a b => strLt a b = true)
        (try_decode_csv_rows (docs.map .vObj) [] []).1
      rw [hspec]
      exact csvColsFrom_sorted docs List.sorted_nil
    · intro col
      show col ∈ (try_decode_csv_rows (docs.map .vObj) [] []).1 ↔ _
      rw [hspec]
      have := csvColsFrom_mem docs [] col
      simpa using this
  · intro docs
    show (try_decode_csv_rows (docs.map .vObj) [] []).2 = _
    rw [csv_rows_spec docs [] []]
    rfl
  · intro cols d ds
    rfl
  · intro result col h
    rw [h]
    rfl

/-- C7 amended-claim witness: a concrete missing column yields the empty
cell. -/
theorem c7_flatten_amended_witness :
    ((lookupKV [("a.0", JValue.vInt 1)] "zz").map jsonToString).getD "" = "" :=
  c7_flatten_amended.2.2.2 [("a.0", JValue.vInt 1)] "zz" rfl

/-! ## Lemmas about the array-suffix regex model -/

theorem revLook_sound :
    ∀ (rs acc b ds : List Char), acc ≠ [] → acc.all Char.isDigit = true →
      revLook acc rs = some (b, ds) →
      b ++ '_' :: '_' :: ds = rs.reverse ++ acc ∧ b ≠ [] ∧ ds ≠ [] ∧
        ds.all Char.isDigit = true := by
  intro rs
  induction rs with
  | nil =>
    intro acc b ds h1 h2 h3
    simp [revLook] at h3
  | cons c rest ih =>
    intro acc b ds h1 h2 h3
    unfold revLook at h3
    by_cases hc : c = '_'
    · rw [if_pos hc] at h3
      split at h3
      · rename_i b0 bs
        simp only [Option.some.injEq, Prod.mk.injEq] at h3
        obtain ⟨hb, hds⟩ := h3
        subst hb
        subst hds
        subst hc
        refine ⟨?_, by simp, h1, h2⟩
        simp [List.reverse_cons, List.append_assoc]
      · exact Option.noConfusion h3
    · rw [if_neg hc] at h3
      by_cases hd : c.isDigit = true
      · rw [if_pos hd] at h3
        obtain ⟨heq, hb, hds, hall⟩ :=
          ih (c :: acc) b ds (by simp) (by simp [hd, h2]) h3
        refine ⟨?_, hb, hds, hall⟩
        rw [heq]
        simp [List.reverse_cons, List.append_assoc]
      · rw [if_neg hd] at h3
        exact Option.noConfusion h3

theorem revLook_complete :
    ∀ (rds : List Char), rds.all Char.isDigit = true →
      ∀ (acc : List Char) (x : Char) (xs : List Char),
        (revLook acc (rds ++ '_' :: '_' :: x :: xs)).isSome = true := by
  intro rds
  induction rds with
  | nil =>
    intro _ acc x xs
    simp [revLook]
  | cons d t ih =>
    intro hall acc x xs
    simp only [List.all_cons, Bool.and_eq_true] at hall
    obtain ⟨hd, hall'⟩ := hall
    show (revLook acc (d :: (t ++ '_' :: '_' :: x :: xs))).isSome = true
    unfold revLook
    have hne : ¬d = '_' := by
      intro h
      subst h
      simp [Char.isDigit] at hd
    rw [if_neg hne, if_pos hd]
    exact ih hall' (d :: acc) x xs

theorem arrayMatch_sound (s b ds : List Char)
    (h : arrayMatch s = some (b, ds)) :
    s = b ++ '_' :: '_' :: ds ∧ b ≠ [] ∧ ds ≠ [] ∧
      ds.all Char.isDigit = true ∧
      s.any (fun ch => ch = '\n') = false := by
  unfold arrayMatch at h
  by_cases hn : s.any (fun ch => ch = '\n') = true
  · rw [if_pos hn] at h
    exact Option.noConfusion h
  · rw [if_neg hn] at h
    cases hs : s.reverse with
    | nil =>
      rw [hs] at h
      exact Option.noConfusion h
    | cons c rest =>
      rw [hs] at h
      have h' : (if c.isDigit = true then revLook [c] rest else none) =
          some (b, ds) := h
      by_cases hd : c.isDigit = true
      · rw [if_pos hd] at h'
        obtain ⟨heq, hb, hds, hall⟩ :=
          revLook_sound rest [c] b ds (by simp) (by simp [hd]) h'
        have hs2 : s = rest.reverse ++ [c] := by
          have h2 := congrArg List.reverse hs
          simpa [List.reverse_reverse] using h2
        refine ⟨by rw [hs2, ← heq], hb, hds, hall, Bool.eq_false_of_ne_true hn⟩
      · rw [if_neg hd] at h'
        exact Option.noConfusion h'

theorem arrayMatch_complete (s b ds : List Char)
    (hs : s = b ++ '_' :: '_' :: ds) (hb : b ≠ []) (hds : ds ≠ [])
    (hall : ds.all Char.isDigit = true)
    (hnl : b.all (fun ch => ch != '\n') = true) :
    (arrayMatch s).isSome = true := by
  have hnos : s.any (fun ch => ch = '\n') = false := by
    subst hs
    rw [List.any_eq_false]
    intro ch hch
    simp only [List.mem_append, List.mem_cons] at hch
    simp only [decide_eq_true_eq]
    rcases hch with hb2 | (rfl | rfl | hds2)
    · have := List.all_eq_true.mp hnl ch hb2
      simpa using this
    · decide
    · decide
    · have hdig := List.all_eq_true.mp hall ch hds2
      intro hcontra
      subst hcontra
      simp [Char.isDigit] at hdig
  unfold arrayMatch
  rw [if_neg (by rw [hnos]; exact Bool.false_ne_true)]
  cases hrd : ds.reverse with
  | nil =>
    have hds0 : ds = [] := by
      rw [← List.reverse_reverse ds, hrd]
      rfl
    exact absurd hds0 hds
  | cons c t =>
    have hsrev : s.reverse = c :: (t ++ '_' :: '_' :: b.reverse) := by
      subst hs
      simp [List.reverse_append, List.reverse_cons, hrd, List.append_assoc]
    rw [hsrev]
    have hcds : c ∈ ds := by
      have h2 : c ∈ ds.reverse := by rw [hrd]; exact List.mem_cons_self c t
      simpa using h2
    have hcdig : c.isDigit = true := List.all_eq_true.mp hall c hcds
    show (if c.isDigit = true then
      revLook [c] (t ++ '_' :: '_' :: b.reverse) else none).isSome = true
    rw [if_pos hcdig]
    cases hbr : b.reverse with
    | nil =>
      have hb0 : b = [] := by
        rw [← List.reverse_reverse b, hbr]
        rfl
      exact absurd hb0 hb
    | cons x xs =>
      have htall : t.all Char.isDigit = true := by
        rw [List.all_eq_true]
        intro ch hch
        have : ch ∈ ds.reverse := by rw [hrd]; exact List.mem_cons_of_mem c hch
        exact List.all_eq_true.mp hall ch (by simpa using this)
      exact revLook_complete t htall [c] x xs

/-- C8 counterexample: a digit group too large for the 64-bit `usize` is NOT
kept as the length — `parse::<usize>().unwrap_or(0)` overflows to 0, so the
token `a__99999999999999999999` is classified as `Array("a", 0)`, not as an
array of length 99999999999999999999 as the claim's "digits as length"
states. -/
theorem c8_overflow_counterexample :
    to_field_type "a__99999999999999999999" = .Array "a" 0 ∧
    to_field_type "a__99999999999999999999" ≠
      .Array "a" 99999999999999999999 := by
  constructor
  · decide
  · decide

/-- C8 (amended): classification tries the `<base>__<digits>` regex first —
any token admitting such a decomposition (base nonempty and newline-free,
digits nonempty) is classified as an `Array` of the (greedily chosen) base
with separators normalized, the length being the digit group's value when it
fits the 64-bit `usize` and 0 on overflow; a token with no such decomposition
is a `Sequence(inner normalized)` when shaped `sequence<INNER>`, else an
`Object(token normalized)`; normalization replaces every `::` by `/`. -/
theorem c8_type_classification :
    (∀ (s : String) (b ds : List Char),
      s.data = b ++ '_' :: '_' :: ds → b ≠ [] → ds ≠ [] →
      ds.all Char.isDigit = true → b.all (fun ch => ch != '\n') = true →
      ∃ b' ds', s.data = b' ++ '_' :: '_' :: ds' ∧ b' ≠ [] ∧ ds' ≠ [] ∧
        ds'.all Char.isDigit = true ∧
        to_field_type s =
          .Array (String.mk (replaceSep b')) (parse_usize_or_zero ds')) ∧
    (∀ s : String,
      (∀ b ds, s.data = b ++ '_' :: '_' :: ds → b ≠ [] → ds ≠ [] →
        ds.all Char.isDigit = true → False) →
      (s.data.take 9 = "sequence<".data ∧ s.data.getLast? = some '>' →
        to_field_type s =
          .Sequence (String.mk (replaceSep ((s.data.drop 9).dropLast)))) ∧
      (¬(s.data.take 9 = "sequence<".data ∧ s.data.getLast? = some '>') →
        to_field_type s = .Object (String.mk (replaceSep s.data)))) ∧
    (∀ r : List Char, replaceSep (':' :: ':' :: r) = '/' :: replaceSep r) ∧
    (∀ ds : List Char, digitsToNat ds < 2 ^ 64 →
      parse_usize_or_zero ds = digitsToNat ds) ∧
    (∀ ds : List Char, ¬digitsToNat ds < 2 ^ 64 →
      parse_usize_or_zero ds = 0) := by
  refine ⟨?_, ?_, ?_, ?_, ?_⟩
  · intro s b ds h1 h2 h3 h4 h5
    have hsome := arrayMatch_complete s.data b ds h1 h2 h3 h4 h5
    obtain ⟨p, hm⟩ := Option.isSome_iff_exists.mp hsome
    obtain ⟨bd, dd⟩ := p
    obtain ⟨he, hb', hds', hall', _⟩ := arrayMatch_sound s.data bd dd hm
    refine ⟨bd, dd, he, hb', hds', hall', ?_⟩
    unfold to_field_type
    rw [hm]
  · intro s hno
    have hnone : arrayMatch s.data = none := by
      cases hm : arrayMatch s.data with
      | none => rfl
      | some p =>
        obtain ⟨he, hb, hds, hall, _⟩ := arrayMatch_sound s.data p.1 p.2
          (by rw [hm])
        exact (hno p.1 p.2 he hb hds hall).elim
    constructor
    · intro hseq
      unfold to_field_type
      rw [hnone, if_pos hseq]
    · intro hseq
      unfold to_field_type
      rw [hnone, if_neg hseq]
  · intro r
    rfl
  · intro ds h
    unfold parse_usize_or_zero
    rw [if_pos h]
  · intro ds h
    unfold parse_usize_or_zero
    rw [if_neg h]

/-- C8 witness: the classification applied to the three concrete tokens
`geometry_msgs::msg::Point__5`, `sequence<std_msgs::msg::Float64>` and
`float64`. -/
theorem c8_type_classification_witness :
    (∃ b' ds', ("geometry_msgs::msg::Point__5" : String).data =
        b' ++ '_' :: '_' :: ds' ∧ b' ≠ [] ∧ ds' ≠ [] ∧
        ds'.all Char.isDigit = true ∧
        to_field_type "geometry_msgs::msg::Point__5" =
          .Array (String.mk (replaceSep b')) (parse_usize_or_zero ds')) ∧
    (to_field_type "sequence<a::b>" =
      .Sequence (String.mk (replaceSep
        ((("sequence<a::b>" : String).data.drop 9).dropLast)))) ∧
    (to_field_type "float64" =
      .Object (String.mk (replaceSep ("float64" : String).data))) :=
  ⟨c8_type_classification.1 "geometry_msgs::msg::Point__5"
      "geometry_msgs::msg::Point".data ['5'] rfl (by decide) (by decide)
      (by decide) (by decide),
    (c8_type_classification.2.1 "sequence<a::b>"
      (by
        intro b ds h _ _ _
        have hm : '_' ∈ ("sequence<a::b>" : String).data := by
          rw [h]
          exact List.mem_append_right b (List.mem_cons_self _ _)
        revert hm
        decide)).1 (by decide),
    (c8_type_classification.2.1 "float64"
      (by
        intro b ds h _ _ _
        have hm : '_' ∈ ("float64" : String).data := by
          rw [h]
          exact List.mem_append_right b (List.mem_cons_self _ _)
        revert hm
        decide)).2 (by decide)⟩

/-! ## Schema resolution lemmas (C9) -/

theorem firstExisting_none (fsExists : String → Bool) (p c n : String) :
    ∀ dirs : List String,
      (∀ d ∈ dirs, fsExists (idl_candidate d p c n) = false) →
      firstExisting fsExists p c n dirs = none := by
  intro dirs
  induction dirs with
  | nil => intro _; rfl
  | cons d rest ih =>
    intro h
    unfold firstExisting
    rw [h d (List.mem_cons_self d rest)]
    simp only [Bool.false_eq_true, if_false]
    exact ih (fun d' hd' => h d' (List.mem_cons_of_mem d hd'))

theorem firstExisting_first (fsExists : String → Bool) (p c n : String)
    (d : String) (ds2 : List String)
    (hd : fsExists (idl_candidate d p c n) = true) :
    ∀ ds1 : List String,
      (∀ d' ∈ ds1, fsExists (idl_candidate d' p c n) = false) →
      firstExisting fsExists p c n (ds1 ++ d :: ds2) =
        some (idl_candidate d p c n) := by
  intro ds1
  induction ds1 with
  | nil =>
    intro _
    show firstExisting fsExists p c n (d :: ds2) = _
    unfold firstExisting
    rw [hd]
    simp
  | cons d1 rest ih =>
    intro h
    show firstExisting fsExists p c n (d1 :: (rest ++ d :: ds2)) = _
    unfold firstExisting
    rw [h d1 (List.mem_cons_self d1 rest)]
    simp only [Bool.false_eq_true, if_false]
    exact ih (fun d' hd' => h d' (List.mem_cons_of_mem d1 hd'))

theorem find_ros_idl_path_eq (ap : String) (fsExists : String → Bool)
    (t p n : String) (rest : List String)
    (hsplit : strSplitOn t '/' = p :: "msg" :: n :: rest) :
    find_ros_idl_path (some ap) fsExists t =
      firstExisting fsExists p "msg" n (strSplitOn ap ':') := by
  unfold find_ros_idl_path
  rw [hsplit]
  rfl

theorem find_ros_idl_path_not_msg (ament : Option String)
    (fsExists : String → Bool) (t p c n : String) (rest : List String)
    (hsplit : strSplitOn t '/' = p :: c :: n :: rest) (hc : c ≠ "msg") :
    find_ros_idl_path ament fsExists t = none := by
  unfold find_ros_idl_path
  rw [hsplit]
  show (if c = "msg" then _ else none) = none
  rw [if_neg hc]

/-- C9: resolving a type name whose definition file is absent from every
configured search directory, or whose middle category component is not `msg`,
fails with `IdlNotFound` (the spec's `SchemaNotFound`) and never yields a
default or empty schema; when a definition file exists in several search
directories the first in search-path order is used. -/
theorem c9_schema_not_found :
    (∀ (ament : Option String) (fs : String → Option String) (t : String),
      find_ros_idl_path ament (fun q => (fs q).isSome) t = none →
      MessageSchema.try_from ament fs t = .error (.idlNotFound t)) ∧
    (∀ (ap : String) (fs : String → Option String) (t p n : String)
        (rest : List String),
      strSplitOn t '/' = p :: "msg" :: n :: rest →
      (∀ d ∈ strSplitOn ap ':', fs (idl_candidate d p "msg" n) = none) →
      MessageSchema.try_from (some ap) fs t = .error (.idlNotFound t)) ∧
    (∀ (ament : Option String) (fs : String → Option String)
        (t p c n : String) (rest : List String),
      strSplitOn t '/' = p :: c :: n :: rest → c ≠ "msg" →
      MessageSchema.try_from ament fs t = .error (.idlNotFound t)) ∧
    (∀ (fsExists : String → Bool) (p n d : String) (ds1 ds2 : List String),
      (∀ d' ∈ ds1, fsExists (idl_candidate d' p "msg" n) = false) →
      fsExists (idl_candidate d p "msg" n) = true →
      firstExisting fsExists p "msg" n (ds1 ++ d :: ds2) =
        some (idl_candidate d p "msg" n)) ∧
    (∀ (ament : Option String) (fs : String → Option String)
        (t path content : String),
      find_ros_idl_path ament (fun q => (fs q).isSome) t = some path →
      fs path = some content →
      MessageSchema.try_from ament fs t = .ok (parse_idl_to_schema content t)) := by
  have htry : ∀ (ament : Option String) (fs : String → Option String) (t : String),
      find_ros_idl_path ament (fun q => (fs q).isSome) t = none →
      MessageSchema.try_from ament fs t = .error (.idlNotFound t) := by
    intro ament fs t h
    unfold MessageSchema.try_from
    rw [h]
  refine ⟨htry, ?_, ?_, ?_, ?_⟩
  · intro ap fs t p n rest hsplit hmiss
    refine htry (some ap) fs t ?_
    rw [find_ros_idl_path_eq ap (fun q => (fs q).isSome) t p n rest hsplit]
    refine firstExisting_none (fun q => (fs q).isSome) p "msg" n (strSplitOn ap ':') ?_
    intro d hd
    show (fs (idl_candidate d p "msg" n)).isSome = false
    rw [hmiss d hd]
    rfl
  · intro ament fs t p c n rest hsplit hc
    exact htry ament fs t
      (find_ros_idl_path_not_msg ament (fun q => (fs q).isSome) t p c n rest
        hsplit hc)
  · intro fsExists p n d ds1 ds2 h1 h2
    exact firstExisting_first fsExists p "msg" n d ds2 h2 ds1 h1
  · intro ament fs t path content hfind hread
    unfold MessageSchema.try_from
    rw [hfind]
    show (match fs path with
      | some content => Except.ok (parse_idl_to_schema content t)
      | none => Except.error RosPeekError.ioError) = _
    rw [hread]

/-- C9 witness: a concrete filesystem with the IDL present only under the
second search directory — resolution skips the first directory, errors for a
service category and for an everywhere-absent file. -/
theorem c9_schema_not_found_witness :
    MessageSchema.try_from (some "/opt/a:/opt/b")
        (fun q => if q = "/opt/b/share/std_msgs/msg/Float64.idl" then
          some "double data;" else none)
        "std_msgs/srv/Float64" = .error (.idlNotFound "std_msgs/srv/Float64") ∧
    firstExisting
        (fun q => ((fun q => if q = "/opt/b/share/std_msgs/msg/Float64.idl" then
          some "double data;" else none : String → Option String) q).isSome)
        "std_msgs" "msg" "Float64" (["/opt/a"] ++ "/opt/b" :: []) =
      some (idl_candidate "/opt/b" "std_msgs" "msg" "Float64") ∧
    MessageSchema.try_from (some "/opt/a:/opt/b")
        (fun q => if q = "/opt/b/share/std_msgs/msg/Float64.idl" then
          some "double data;" else none)
        "geometry_msgs/msg/Point" =
      .error (.idlNotFound "geometry_msgs/msg/Point") :=
  ⟨c9_schema_not_found.2.2.1 (some "/opt/a:/opt/b")
      (fun q => if q = "/opt/b/share/std_msgs/msg/Float64.idl" then
        some "double data;" else none)
      "std_msgs/srv/Float64" "std_msgs" "srv" "Float64" [] (by decide)
      (by decide),
    c9_schema_not_found.2.2.2.1
      (fun q => ((fun q => if q = "/opt/b/share/std_msgs/msg/Float64.idl" then
        some "double data;" else none : String → Option String) q).isSome)
      "std_msgs" "Float64" "/opt/b" ["/opt/a"] []
      (by intro d' hd'; fin_cases hd' <;> decide) (by decide),
    c9_schema_not_found.2.1 "/opt/a:/opt/b"
      (fun q => if q = "/opt/b/share/std_msgs/msg/Float64.idl" then
        some "double data;" else none)
      "geometry_msgs/msg/Point" "geometry_msgs" "Point" [] (by decide)
      (by intro d hd; fin_cases hd <;> decide)⟩

end RosPeek
